import Mathlib

/-!
# Archmage dice roller: lexer, recursive-descent parser and evaluator

A shallow embedding of `roll.go`.

* Go `string`s are modelled by Lean `String`s (valid UTF-8, iterated rune by rune).
* Go `int` is the 64-bit signed integer: values live in `Int` and every arithmetic
  result is reduced by `wrapInt`.
* A Go panic is an `Except.error` carrying a `Fault`.
* `make([]int, n)` is the runtime's `makeslice` on a 64-bit target: it panics with
  `makeslice: len out of range` when `n` is negative or `8 * n` bytes exceed `maxAlloc`
  (2^48), that is when `n` exceeds 2^45. Below that bound the slice is taken to be
  allocated; a machine that runs out of memory earlier stops with a fatal error of the
  runtime, which is not a panic of the program and is not modelled.
* The recursive-descent parser is run with a fuel bound; `Fault.outOfFuel` marks a run
  that did not finish within the bound.
* `math/rand` is modelled by a stream of raw draws: `Intn n` returns the next raw draw
  reduced modulo `n`, so every outcome in `[0, n)` is covered.
* `unicode.IsDigit` is `'0'..'9'` on Latin-1 and a table lookup above it; the table
  (category Nd of Go's `unicode` package) is the parameter `nd`.
-/

namespace Archmage

/-! ## Machine integers -/

/-- Largest Go `int` (64-bit). -/
def maxInt : Int := 2 ^ 63 - 1

/-- Smallest Go `int` (64-bit). -/
def minInt : Int := -(2 ^ 63)

/-- Two's-complement wrap-around of an exact result into the 64-bit `int` range. -/
def wrapInt (x : Int) : Int := (x + 2 ^ 63) % 2 ^ 64 - 2 ^ 63

/-- The runtime's `maxAlloc` in bytes on a 64-bit target (`heapAddrBits = 48`, as on
linux/amd64): the largest allocation `makeslice` lets through. -/
def maxAlloc : Int := 2 ^ 48

/-- Whether an exact integer is representable as a Go `int`. -/
def fitsInt (x : Int) : Prop := minInt ≤ x ∧ x ≤ maxInt

instance (x : Int) : Decidable (fitsInt x) := by
  unfold fitsInt
  infer_instance

/-! ## Faults -/

/-- The run-time panics the code can raise, plus the fuel marker of the model. -/
inductive Fault
  | indexOutOfRange
  | unreachable
  | nilDereference
  | intnNonPositive
  | makesliceLenOutOfRange
  | outOfFuel
deriving DecidableEq, Repr

/-! ## Library functions used by the code -/

/-- Go `unicode.IsDigit`: on Latin-1 exactly `'0'..'9'`, above it the Nd table `nd`. -/
def unicodeIsDigit (nd : Char → Bool) (c : Char) : Bool :=
  if c.val ≤ 0xFF then decide ('0' ≤ c) && decide (c ≤ '9') else nd c

/-- The class `\d` of Go's `regexp`: ASCII digits only. -/
def asciiDigit (c : Char) : Bool := decide ('0' ≤ c) && decide (c ≤ '9')

/-- Value of a run of ASCII digits read in base ten. -/
def decimalValue (cs : List Char) : Nat :=
  cs.foldl (fun n c => n * 10 + (c.toNat - '0'.toNat)) 0

/-- Go `strconv.Atoi` on a 64-bit target: the value and whether an error is returned.
A syntax error gives `0`; a range error gives the nearest representable bound. -/
def Atoi (s : String) : Int × Bool :=
  let neg : Bool := decide (s.data.head? = some '-')
  let signed : Bool := neg || decide (s.data.head? = some '+')
  let ds := if signed then s.data.tail else s.data
  if ds.isEmpty || !ds.all asciiDigit then (0, true)
  else
    let n : Int := (decimalValue ds : Nat)
    if neg then (if n > 2 ^ 63 then (minInt, true) else (-n, false))
    else (if n ≥ 2 ^ 63 then (maxInt, true) else (n, false))

/-- Go `strconv.Itoa`. -/
def Itoa (i : Int) : String := toString i

/-- Go `strings.Split(s, "d")` on the runes of `s`. -/
def splitOnD : List Char → List (List Char)
  | [] => [[]]
  | c :: cs =>
    match splitOnD cs with
    | [] => [[]]
    | hd :: tl => if c = 'd' then [] :: hd :: tl else (c :: hd) :: tl

/-- The pseudo-random source: a stream of raw draws and a read position. -/
structure Rand where
  stream : Nat → Nat
  pos : Nat

/-- Go `rand.Intn(n)`: panics when `n ≤ 0`, else the next draw, in `[0, n)`. -/
def Rand.Intn (g : Rand) (n : Int) : Except Fault (Int × Rand) :=
  if n ≤ 0 then .error .intnNonPositive
  else .ok (((g.stream g.pos % n.toNat : Nat) : Int), { g with pos := g.pos + 1 })

/-! ## Lexer -/

inductive TokenType
  | Const
  | Die
  | Term
  | Factor
  | Group
deriving DecidableEq, Repr

structure Token where
  Typ : TokenType
  Value : String
deriving DecidableEq, Repr

/-- The zero value `Token{}`. -/
def Token.zero : Token := ⟨.Const, ""⟩

/-- The regular expression `^\d*d\d+$`. -/
def dieExprMatch (token : String) : Bool :=
  match token.data.dropWhile asciiDigit with
  | 'd' :: ds => !ds.isEmpty && ds.all asciiDigit
  | _ => false

/-- Helper of `LexToken`: checks if a string is only digits. -/
def isInt (nd : Char → Bool) (s : String) : Bool :=
  s.data.all (unicodeIsDigit nd)

/-- The message of the lexer's error. -/
def lexError (token : String) : String :=
  "\"" ++ token ++ "\" was not recognized as a valid number or dice expression."

/-- Parses either a die or a value expression from a string; the second component is
the error, if any. -/
def LexToken (nd : Char → Bool) (token : String) : Token × Option String :=
  if isInt nd token then (⟨.Const, token⟩, none)
  else if dieExprMatch token then
    if token.data.head? = some 'd' then (⟨.Die, "1" ++ token⟩, none)
    else (⟨.Die, token⟩, none)
  else (Token.zero, some (lexError token))

/-- The first `case` of the lexer's switch. -/
def isWhitespace (c : Char) : Bool :=
  c = '\t' || c = '\n' || c = Char.ofNat 0x0B || c = Char.ofNat 0x0C || c = '\r' ||
    c = ' ' || c = Char.ofNat 0x85 || c = Char.ofNat 0xA0

/-- The second `case` of the lexer's switch: the transition characters. -/
def isTransition (c : Char) : Bool :=
  c = '+' || c = '-' || c = '*' || c = '/' || c = '(' || c = ')'

/-- The inner switch narrowing a transition character to its token type; `none` is its
`default` branch. -/
def transitionType (c : Char) : Option TokenType :=
  if c = '(' || c = ')' then some .Group
  else if c = '*' || c = '/' then some .Factor
  else if c = '+' || c = '-' then some .Term
  else none

/-- The character loop of `tokenizeExpr` followed by the final flush; `tokens` and `sb`
are the loop's variables. The result is Go's `([]Token, error)` pair. -/
def tokenizeLoop (nd : Char → Bool) :
    List Char → List Token → List Char → Except Fault (List Token × Option String)
  | [], tokens, sb =>
    if sb.length ≠ 0 then
      match LexToken nd (String.mk sb) with
      | (_, some err) => .ok ([], some err)
      | (t, none) => .ok (tokens ++ [t], none)
    else .ok (tokens, none)
  | char :: rest, tokens, sb =>
    if isWhitespace char then tokenizeLoop nd rest tokens sb
    else if isTransition char then
      let flushed : List Token × Option String :=
        if sb.length ≠ 0 then
          match LexToken nd (String.mk sb) with
          | (_, some err) => ([], some err)
          | (t, none) => (tokens ++ [t], none)
        else (tokens, none)
      match flushed with
      | (_, some err) => .ok ([], some err)
      | (tokens1, none) =>
        match transitionType char with
        | none => .error .unreachable
        | some typ => tokenizeLoop nd rest (tokens1 ++ [⟨typ, String.singleton char⟩]) []
    else tokenizeLoop nd rest tokens (sb ++ [char])

def tokenizeExpr (nd : Char → Bool) (raw : String) :
    Except Fault (List Token × Option String) :=
  tokenizeLoop nd raw.data [] []

/-! ## Parser and AST -/

/-- An AST expression: the three implementers of the interface and the `nil` interface
value. -/
inductive AstExpr
  | nil
  | AstConst (value : Int)
  | AstDie (left right : Int)
  | AstOp (Left Right : AstExpr) (Op : Token)
deriving DecidableEq, Repr

structure DiceParser where
  tokens : List Token
  current : Nat
  errors : List String
deriving DecidableEq, Repr

def NewDiceParser (tokens : List Token) : DiceParser := ⟨tokens, 0, []⟩

namespace DiceParser

/-- Whether `current` equals the length of the token buffer minus one (as Go `int`s). -/
def isAtEnd (p : DiceParser) : Bool :=
  decide ((p.current : Int) = (p.tokens.length : Int) - 1)

/-- The current token, without advancing; indexing panics outside the buffer. -/
def peek (p : DiceParser) : Except Fault Token :=
  match p.tokens[p.current]? with
  | some t => .ok t
  | none => .error .indexOutOfRange

/-- Whether the current token is of the given type. -/
def check (p : DiceParser) (t : TokenType) : Except Fault Bool :=
  match peek p with
  | .ok tok => .ok (decide (tok.Typ = t))
  | .error f => .error f

/-- Advances the cursor and returns the token before it; at the end returns the current
token and leaves the cursor. -/
def consume (p : DiceParser) : Except Fault (Token × DiceParser) :=
  if !isAtEnd p then
    match p.tokens[p.current + 1 - 1]? with
    | some t => .ok (t, { p with current := p.current + 1 })
    | none => .error .indexOutOfRange
  else
    match p.tokens[p.current]? with
    | some t => .ok (t, p)
    | none => .error .indexOutOfRange

/-- The loop of `Factor`: `expr` is the tree built so far, `prim` is `Primary`. -/
def factorLoop (prim : DiceParser → Except Fault (AstExpr × DiceParser)) :
    Nat → AstExpr → DiceParser → Except Fault (AstExpr × DiceParser)
  | 0, _, _ => .error .outOfFuel
  | fuel + 1, expr, p =>
    match check p .Factor with
    | .error f => .error f
    | .ok false => .ok (expr, p)
    | .ok true =>
      match consume p with
      | .error f => .error f
      | .ok (operator, p1) =>
        match prim p1 with
        | .error f => .error f
        | .ok (right, p2) => factorLoop prim fuel (.AstOp expr right operator) p2

/-- The rule `Factor => Primary ([ '*' | '/' ] Primary)*`. -/
def Factor (prim : DiceParser → Except Fault (AstExpr × DiceParser)) (fuel : Nat)
    (p : DiceParser) : Except Fault (AstExpr × DiceParser) :=
  match prim p with
  | .error f => .error f
  | .ok (expr, p1) => factorLoop prim fuel expr p1

/-- The loop of `Term`: `expr` is the tree built so far, `prim` is `Primary`. -/
def termLoop (prim : DiceParser → Except Fault (AstExpr × DiceParser)) :
    Nat → AstExpr → DiceParser → Except Fault (AstExpr × DiceParser)
  | 0, _, _ => .error .outOfFuel
  | fuel + 1, expr, p =>
    match check p .Term with
    | .error f => .error f
    | .ok false => .ok (expr, p)
    | .ok true =>
      match consume p with
      | .error f => .error f
      | .ok (operator, p1) =>
        match Factor prim fuel p1 with
        | .error f => .error f
        | .ok (right, p2) => termLoop prim fuel (.AstOp expr right operator) p2

/-- The rule `Term => Factor ([ '+' | '-' ] Factor)*`. -/
def Term (prim : DiceParser → Except Fault (AstExpr × DiceParser)) (fuel : Nat)
    (p : DiceParser) : Except Fault (AstExpr × DiceParser) :=
  match Factor prim fuel p with
  | .error f => .error f
  | .ok (expr, p1) => termLoop prim fuel expr p1

/-- The message recorded for a NUMBER token that `Atoi` rejects. -/
def numberError (value : String) : String :=
  "Found a NUMBER token that was not purely numeric: '" ++ value ++ "'"

/-- The message recorded for a die token whose count or sides `Atoi` rejects. -/
def dieNumberError (value : String) : String :=
  "\"" ++ value ++ "\" NUMBER in dice expression was not purely numeric."

/-- The die branch of `Primary`, after the token `t` has been consumed. -/
def primaryDie (nd : Char → Bool) (t : Token) (p : DiceParser) : AstExpr × DiceParser :=
  match splitOnD t.Value.data with
  | [s0, s1] =>
    if !isInt nd (String.mk s1) then
      (.nil, { p with errors := p.errors ++ [lexError t.Value] })
    else
      let s0 := if s0 = [] then "1".data else s0
      let l := Atoi (String.mk s0)
      let p1 := if l.2 then { p with errors := p.errors ++ [dieNumberError t.Value] } else p
      let r := Atoi (String.mk s1)
      let p2 := if r.2 then { p1 with errors := p1.errors ++ [dieNumberError t.Value] } else p1
      (.AstDie l.1 r.1, p2)
  | _ => (.nil, { p with errors := p.errors ++ [lexError t.Value] })

/-- The rule `Primary => '(' Expr ')' | DIE | NUMBER`. The recursive call `p.Expr()` is
`p.Term()` one level of fuel down. -/
def Primary (nd : Char → Bool) : Nat → DiceParser → Except Fault (AstExpr × DiceParser)
  | 0, _ => .error .outOfFuel
  | fuel + 1, p =>
    match check p .Const with
    | .error f => .error f
    | .ok true =>
      match consume p with
      | .error f => .error f
      | .ok (t, p1) =>
        let v := Atoi t.Value
        .ok (.AstConst v.1,
          if v.2 then { p1 with errors := p1.errors ++ [numberError t.Value] } else p1)
    | .ok false =>
      match check p .Die with
      | .error f => .error f
      | .ok true =>
        match consume p with
        | .error f => .error f
        | .ok (t, p1) => .ok (primaryDie nd t p1)
      | .ok false =>
        match check p .Group, peek p with
        | .error f, _ => .error f
        | _, .error f => .error f
        | .ok isGroup, .ok tok =>
          if isGroup && decide (tok.Value = "(") then
            match consume p with
            | .error f => .error f
            | .ok (_, p1) =>
              match Term (Primary nd fuel) fuel p1 with
              | .error f => .error f
              | .ok (expr, p2) =>
                match check p2 .Group, peek p2 with
                | .error f, _ => .error f
                | _, .error f => .error f
                | .ok isGroup2, .ok tok2 =>
                  if isGroup2 && decide (tok2.Value = ")") then
                    match consume p2 with
                    | .error f => .error f
                    | .ok (_, p3) => .ok (expr, p3)
                  else .ok (.nil, { p2 with errors := p2.errors ++ ["Unmatched parenthesis."] })
          else .error .unreachable

/-- The rule `Expr => Term`. -/
def Expr (nd : Char → Bool) (fuel : Nat) (p : DiceParser) :
    Except Fault (AstExpr × DiceParser) :=
  Term (Primary nd fuel) fuel p

end DiceParser

/-! ## Evaluator -/

/-- The roll loop of `AstDie.Eval` over `rolls` of length `len`; the first argument
counts the iterations left, so the index is `len` minus it. -/
def rollLoop (right : Int) (len : Nat) :
    Nat → List Char → List Int → Rand → Except Fault (List Char × List Int × Rand)
  | 0, sb, rolls, g => .ok (sb, rolls, g)
  | k + 1, sb, rolls, g =>
    match g.Intn right with
    | .error f => .error f
    | .ok (r, g1) =>
      let roll := wrapInt (r + 1)
      let sb1 := sb ++ (Itoa roll).data
      let sb2 := if ((len - (k + 1) : Nat) : Int) ≠ (len : Int) - 1 then sb1 ++ ", ".data else sb1
      rollLoop right len k sb2 (rolls ++ [roll]) g1

/-- The summing loop of `AstDie.Eval`. -/
def sumRolls (rolls : List Int) : Int :=
  rolls.foldl (fun sum v => wrapInt (sum + v)) 0

/-- The binary operation of `AstOp.Eval` once both children are evaluated; `sb` is the
assembled trace. -/
def evalOp (op : String) (left right : Int) (sb : String) : Except Fault (Int × String) :=
  if op = "+" then .ok (wrapInt (left + right), sb)
  else if op = "-" then .ok (wrapInt (left - right), sb)
  else if op = "*" then .ok (wrapInt (left * right), sb)
  else if op = "/" then
    if right = 0 then .ok (0, "ERROR: DIVIDE BY ZERO")
    else .ok (wrapInt (Int.tdiv left right), sb)
  else .error .unreachable

/-- The method `Eval` of the three node types; calling it on the `nil` interface faults.
The random source is threaded through, left child first. In `AstDie.Eval` the slice
`make([]int, t.left)` of 8-byte `int`s is made first, and `makeslice` panics when the
length is negative or the slice would exceed `maxAlloc`. -/
def AstExpr.Eval : AstExpr → Rand → Except Fault (Int × String × Rand)
  | .nil, _ => .error .nilDereference
  | .AstConst c, g => .ok (c, Itoa c, g)
  | .AstDie left right, g =>
    if left < 0 ∨ maxAlloc < 8 * left then .error .makesliceLenOutOfRange
    else
      match rollLoop right left.toNat left.toNat ['['] [] g with
      | .error f => .error f
      | .ok (sb, rolls, g1) => .ok (sumRolls rolls, String.mk (sb ++ [']']), g1)
  | .AstOp l r op, g =>
    match AstExpr.Eval l g with
    | .error f => .error f
    | .ok (left, lwork, g1) =>
      match AstExpr.Eval r g1 with
      | .error f => .error f
      | .ok (right, rwork, g2) =>
        match evalOp op.Value left right (lwork ++ " " ++ op.Value ++ " " ++ rwork) with
        | .error f => .error f
        | .ok (sum, work) => .ok (sum, work, g2)

/-! ## The grammar -/

/-- The nonterminals of the grammar. `TermRest acc` and `FactorRest acc` are the
repetitions `(('+'|'-') Factor)*` and `(('*'|'/') Primary)*` folded onto the tree `acc`
built so far. -/
inductive Rule
  | Expr
  | Term
  | Factor
  | Primary
  | TermRest (acc : AstExpr)
  | FactorRest (acc : AstExpr)

/-- The sentences of the grammar with the tree the grammar prescribes for each:
`Derives r ts a` says that the tokens `ts` are derived from the rule `r` with tree `a`.
Number and dice literals are non-empty runs of ASCII digits whose value fits in an
`int`. -/
inductive Derives : Rule → List Token → AstExpr → Prop
  | expr {ts a} : Derives .Term ts a → Derives .Expr ts a
  | term {ts rest a b} : Derives .Factor ts a → Derives (.TermRest a) rest b →
      Derives .Term (ts ++ rest) b
  | termNil {acc} : Derives (.TermRest acc) [] acc
  | termCons {acc op ts rest b c} : (op = "+" ∨ op = "-") → Derives .Factor ts b →
      Derives (.TermRest (.AstOp acc b ⟨.Term, op⟩)) rest c →
      Derives (.TermRest acc) (⟨.Term, op⟩ :: ts ++ rest) c
  | factor {ts rest a b} : Derives .Primary ts a → Derives (.FactorRest a) rest b →
      Derives .Factor (ts ++ rest) b
  | factorNil {acc} : Derives (.FactorRest acc) [] acc
  | factorCons {acc op ts rest b c} : (op = "*" ∨ op = "/") → Derives .Primary ts b →
      Derives (.FactorRest (.AstOp acc b ⟨.Factor, op⟩)) rest c →
      Derives (.FactorRest acc) (⟨.Factor, op⟩ :: ts ++ rest) c
  | number {ds} : ds ≠ [] → ds.all asciiDigit = true → decimalValue ds < 2 ^ 63 →
      Derives .Primary [⟨.Const, String.mk ds⟩] (.AstConst (decimalValue ds))
  | dice {n m} : n ≠ [] → n.all asciiDigit = true → decimalValue n < 2 ^ 63 →
      m ≠ [] → m.all asciiDigit = true → decimalValue m < 2 ^ 63 →
      Derives .Primary [⟨.Die, String.mk (n ++ 'd' :: m)⟩]
        (.AstDie (decimalValue n) (decimalValue m))
  | group {ts a} : Derives .Expr ts a →
      Derives .Primary (⟨.Group, "("⟩ :: ts ++ [⟨.Group, ")"⟩]) a

/-- Where the cursor stands once `i` tokens are behind it: `consume` never moves it
past the last token. -/
def cursorAt (toks : List Token) (i : Nat) : Nat := min i (toks.length - 1)

/-- The token under the cursor after `i` tokens exists and its type is not in `S`. -/
def StopAt (S : TokenType → Prop) (toks : List Token) (i : Nat) : Prop :=
  ∃ tok, toks[cursorAt toks i]? = some tok ∧ ¬ S tok.Typ

/-- What the parser does on a sentence of each rule, inside any surrounding token
sequence `pre ++ ts ++ post`: it returns the prescribed tree, leaves the error list
alone and puts the cursor behind `ts`. -/
def Good (nd : Char → Bool) : Rule → List Token → AstExpr → Prop
  | .Primary, ts, a => ∀ fuel pre post es toks, toks = pre ++ ts ++ post →
      ts.length < fuel →
      DiceParser.Primary nd fuel ⟨toks, cursorAt toks pre.length, es⟩
        = .ok (a, ⟨toks, cursorAt toks (pre.length + ts.length), es⟩)
  | .Factor, ts, a => ∀ m k pre post es toks, toks = pre ++ ts ++ post →
      ts.length < m → ts.length < k →
      StopAt (fun t => t = .Factor) toks (pre.length + ts.length) →
      DiceParser.Factor (DiceParser.Primary nd m) k ⟨toks, cursorAt toks pre.length, es⟩
        = .ok (a, ⟨toks, cursorAt toks (pre.length + ts.length), es⟩)
  | .FactorRest acc, ts, a => ∀ m k pre post es toks, toks = pre ++ ts ++ post →
      ts.length < m → ts.length < k →
      StopAt (fun t => t = .Factor) toks (pre.length + ts.length) →
      DiceParser.factorLoop (DiceParser.Primary nd m) k acc
          ⟨toks, cursorAt toks pre.length, es⟩
        = .ok (a, ⟨toks, cursorAt toks (pre.length + ts.length), es⟩)
  | .Term, ts, a => ∀ m k pre post es toks, toks = pre ++ ts ++ post →
      ts.length < m → ts.length < k →
      StopAt (fun t => t = .Term ∨ t = .Factor) toks (pre.length + ts.length) →
      DiceParser.Term (DiceParser.Primary nd m) k ⟨toks, cursorAt toks pre.length, es⟩
        = .ok (a, ⟨toks, cursorAt toks (pre.length + ts.length), es⟩)
  | .TermRest acc, ts, a => ∀ m k pre post es toks, toks = pre ++ ts ++ post →
      ts.length < m → ts.length < k →
      StopAt (fun t => t = .Term ∨ t = .Factor) toks (pre.length + ts.length) →
      DiceParser.termLoop (DiceParser.Primary nd m) k acc
          ⟨toks, cursorAt toks pre.length, es⟩
        = .ok (a, ⟨toks, cursorAt toks (pre.length + ts.length), es⟩)
  | .Expr, ts, a => ∀ fuel pre post es toks, toks = pre ++ ts ++ post →
      ts.length < fuel →
      StopAt (fun t => t = .Term ∨ t = .Factor) toks (pre.length + ts.length) →
      DiceParser.Expr nd fuel ⟨toks, cursorAt toks pre.length, es⟩
        = .ok (a, ⟨toks, cursorAt toks (pre.length + ts.length), es⟩)

/-- The shape of the last token of a sentence: never an operator. The repetitions may
be empty. -/
def EndsClosed : Rule → List Token → Prop
  | .TermRest _, ts => ts = [] ∨ ∃ tok, ts.getLast? = some tok ∧ tok.Typ ≠ .Term ∧ tok.Typ ≠ .Factor
  | .FactorRest _, ts => ts = [] ∨ ∃ tok, ts.getLast? = some tok ∧ tok.Typ ≠ .Term ∧ tok.Typ ≠ .Factor
  | _, ts => ∃ tok, ts.getLast? = some tok ∧ tok.Typ ≠ .Term ∧ tok.Typ ≠ .Factor

/-- A sample of the table Nd above Latin-1: the Arabic-Indic digits U+0660..U+0669 and
the fullwidth digits U+FF10..U+FF19. -/
def ndSample (c : Char) : Bool :=
  (decide (0x660 ≤ c.toNat) && decide (c.toNat ≤ 0x669)) ||
    (decide (0xFF10 ≤ c.toNat) && decide (c.toNat ≤ 0xFF19))

/-- The Number token of a digit run. -/
def numTok (ds : List Char) : Token := ⟨.Const, String.mk ds⟩

/-- A number literal the grammar admits: a non-empty run of ASCII digits whose value
fits in an `int`. -/
def IsIntLiteral (ds : List Char) : Prop :=
  ds ≠ [] ∧ (∀ c ∈ ds, asciiDigit c = true) ∧ decimalValue ds < 2 ^ 63

/-- The value of a binary operation on Go `int`s, division by zero giving `0`. -/
def applyOp (op : String) (l r : Int) : Int :=
  if op = "+" then wrapInt (l + r)
  else if op = "-" then wrapInt (l - r)
  else if op = "*" then wrapInt (l * r)
  else if r = 0 then 0
  else wrapInt (Int.tdiv l r)

/-- The tokens of a chain `x1 op1 x2 op2 ... xn` whose operator tokens have type `ty`. -/
def chainTokens (ty : TokenType) (x1 : List Char) (rest : List (String × List Char)) :
    List Token :=
  numTok x1 :: rest.flatMap (fun p => [⟨ty, p.1⟩, numTok p.2])

/-- The left-nested tree of a chain. -/
def chainTree (ty : TokenType) (x1 : List Char) (rest : List (String × List Char)) :
    AstExpr :=
  rest.foldl (fun acc p => .AstOp acc (.AstConst (decimalValue p.2)) ⟨ty, p.1⟩)
    (.AstConst (decimalValue x1))

/-- The left fold of the operations over the operands of a chain. -/
def chainValue (x1 : List Char) (rest : List (String × List Char)) : Int :=
  rest.foldl (fun acc p => applyOp p.1 acc (decimalValue p.2)) (decimalValue x1)

instance (ds : List Char) : Decidable (IsIntLiteral ds) := by
  unfold IsIntLiteral
  infer_instance

/-- The exact integer result of an operator of the language, division truncating
toward zero. -/
def exactOp (op : String) (l r : Int) : Int :=
  if op = "+" then l + r
  else if op = "-" then l - r
  else if op = "*" then l * r
  else Int.tdiv l r

/-- The draws of `count` dice of `sides` sides from the source `g`, in roll order. -/
def drawsOf (g : Rand) (count : Nat) (sides : Int) : List Int :=
  (List.range count).map (fun i => ((g.stream (g.pos + i) % sides.toNat : Nat) : Int) + 1)

/-- Decimal draws separated by a comma and a blank. -/
def joinDraws : List Int → List Char
  | [] => []
  | [d] => (Itoa d).data
  | d :: e :: ds => (Itoa d).data ++ ", ".data ++ joinDraws (e :: ds)

/-- The trace of a dice roll: the draws between brackets. -/
def renderDraws (draws : List Int) : String :=
  String.mk (['['] ++ joinDraws draws ++ [']'])

/-! ## The lexer's contract in the words of the specification -/

/-- A piece of the input: a pending buffer or a transition character. -/
inductive Piece
  | buffer (cs : List Char)
  | transition (c : Char)
deriving DecidableEq, Repr

/-- Splits whitespace-free text at the transition characters: every maximal non-empty
run of other characters is one buffer. -/
def pieces : List Char → List Piece
  | [] => []
  | c :: cs =>
    if isTransition c then .transition c :: pieces cs
    else
      match pieces cs with
      | .buffer b :: ps => .buffer (c :: b) :: ps
      | ps => .buffer [c] :: ps

/-- The buffers and transition characters of an input, in input order; whitespace is
skipped and is not part of any buffer. -/
def piecesOf (raw : String) : List Piece :=
  pieces (raw.data.filter (fun c => !isWhitespace c))

/-- A buffer is digit-only. -/
def DigitOnly (nd : Char → Bool) (b : List Char) : Prop :=
  ∀ c ∈ b, unicodeIsDigit nd c = true

instance (nd : Char → Bool) (b : List Char) : Decidable (DigitOnly nd b) := by
  unfold DigitOnly
  infer_instance

/-- A buffer has the form: optional digits, the letter `d`, one or more digits. -/
def DieForm (b : List Char) : Prop :=
  ∃ n m, b = n ++ 'd' :: m ∧ (∀ c ∈ n, asciiDigit c = true) ∧ m ≠ [] ∧
    ∀ c ∈ m, asciiDigit c = true

/-- A buffer that is neither digit-only nor of the dice form. -/
def Offending (nd : Char → Bool) (b : List Char) : Prop :=
  ¬ DigitOnly nd b ∧ ¬ DieForm b

/-- The token the specification assigns to a piece that is not offending: `Paren`,
`MultiplicativeOp` or `AdditiveOp` for a transition character, `Number` for a
digit-only buffer, else `Dice` with the count defaulted to 1. -/
def pieceToken (nd : Char → Bool) : Piece → Token
  | .transition c =>
    ⟨if c = '(' ∨ c = ')' then .Group else if c = '*' ∨ c = '/' then .Factor else .Term,
      String.singleton c⟩
  | .buffer b =>
    if DigitOnly nd b then ⟨.Const, String.mk b⟩
    else ⟨.Die, String.mk (if b.head? = some 'd' then '1' :: b else b)⟩

/-- The pieces once a pending buffer `sb` is put in front of them. -/
def attach : List Char → List Piece → List Piece
  | [], ps => ps
  | sb, .buffer b :: ps => .buffer (sb ++ b) :: ps
  | sb, ps => .buffer sb :: ps

/-- The lexer, piece by piece. -/
def lexPieces (nd : Char → Bool) : List Piece → List Token → List Token × Option String
  | [], tokens => (tokens, none)
  | .buffer b :: ps, tokens =>
    match LexToken nd (String.mk b) with
    | (_, some err) => ([], some err)
    | (t, none) => lexPieces nd ps (tokens ++ [t])
  | .transition c :: ps, tokens => lexPieces nd ps (tokens ++ [pieceToken nd (.transition c)])

/-! ## The command handler -/

/-- What the handler sends to the channel: a plain message, or the embed with its
description, its two fields and its title (the timestamp is left out). -/
inductive Sent
  | message (content : String)
  | embed (description rolls result title : String)
deriving DecidableEq, Repr

/-- Go `fmt.Sprintf("%v", errs)` on a slice of errors. -/
def formatErrors (errs : List String) : String :=
  "[" ++ " ".intercalate errs ++ "]"

/-- The handler of the roll command: tokenize, parse, evaluate. The result is what was
sent to the channel, in order, and the panic that ended the handler, if any.
`username` and `discriminator` are those of the message's author. -/
def RollHandler (nd : Char → Bool) (fuel : Nat) (username discriminator : String)
    (args : List String) (g : Rand) : List Sent × Option Fault :=
  match args with
  | [] => ([], some .indexOutOfRange)
  | a0 :: rest =>
    let args := if a0 = "roll" then rest else a0 :: rest
    match tokenizeExpr nd (String.join args) with
    | .error f => ([], some f)
    | .ok (_, some err) => ([.message ("Error: " ++ err)], none)
    | .ok (tokens, none) =>
      match DiceParser.Expr nd fuel (NewDiceParser tokens) with
      | .error f => ([], some f)
      | .ok (expr, parser) =>
        let sent : List Sent :=
          if parser.errors.length ≠ 0 then
            [.message ("Errs: " ++ formatErrors parser.errors ++ "\n")]
          else []
        match expr.Eval g with
        | .error f => (sent, some f)
        | .ok (result, work, _) =>
          (sent ++ [.embed (String.join args) work (Itoa result)
            (username ++ "#" ++ discriminator ++ " Rolled " ++ Itoa result)], none)

/-! ## Invariants of the parser and shapes of trees -/

/-- Every `AstDie` node of a tree satisfies `P`. -/
def DieNodes (P : Int → Int → Prop) : AstExpr → Prop
  | .nil => True
  | .AstConst _ => True
  | .AstDie l r => P l r
  | .AstOp a b _ => DieNodes P a ∧ DieNodes P b

/-- What a parsing function may do on the token sequence `toks` from cursor `c`: return
with the tokens unchanged, the cursor not before `c` and still inside the sequence and
a tree satisfying `Q`, or fault otherwise than by indexing outside the sequence. -/
def ResOK (toks : List Token) (Q : AstExpr → Prop) (c : Nat) :
    Except Fault (AstExpr × DiceParser) → Prop
  | .ok (a, p) => p.tokens = toks ∧ c ≤ p.current ∧ p.current < toks.length ∧ Q a
  | .error f => f ≠ .indexOutOfRange

/-- A Die token as the lexer emits it: count, `d`, sides, both non-empty runs of ASCII
digits. -/
def LexerDie (t : Token) : Prop :=
  t.Typ = .Die → ∃ k s, k ≠ [] ∧ (∀ c ∈ k, asciiDigit c = true) ∧ s ≠ [] ∧
    (∀ c ∈ s, asciiDigit c = true) ∧ t.Value = String.mk (k ++ 'd' :: s)

/-- Whether the text of an operator token is one of `+ - * /`. -/
def isOperator (op : String) : Bool :=
  decide (op = "+") || decide (op = "-") || decide (op = "*") || decide (op = "/")

/-- A tree built only from `AstConst` and `AstOp` nodes with operators `+ - * /`. -/
def diceFree : AstExpr → Bool
  | .AstConst _ => true
  | .AstOp a b op => diceFree a && diceFree b && isOperator op.Value
  | _ => false

/-- A tree without `nil`, whose dice have a count of at least 0 that `make` accepts
(at most 2^45) and between 1 and the largest `int` sides, and whose operators are
`+ - * /`. -/
def evaluable : AstExpr → Bool
  | .nil => false
  | .AstConst _ => true
  | .AstDie l r =>
    decide (0 ≤ l) && decide (8 * l ≤ maxAlloc) && decide (1 ≤ r) && decide (r ≤ maxInt)
  | .AstOp a b op => evaluable a && evaluable b && isOperator op.Value

/-- The number of dice a tree rolls. -/
def drawCount : AstExpr → Nat
  | .AstDie l _ => l.toNat
  | .AstOp a b _ => drawCount a + drawCount b
  | _ => 0

/-- The trace that shows every roll: each dice node as the bracketed list of its draws,
taken from the random source in evaluation order, each operator between the traces of
its operands. The second component is the source after the draws. -/
def fullTrace : AstExpr → Rand → String × Rand
  | .nil, g => ("", g)
  | .AstConst c, g => (Itoa c, g)
  | .AstDie l r, g => (renderDraws (drawsOf g l.toNat r), { g with pos := g.pos + l.toNat })
  | .AstOp a b op, g =>
    ((fullTrace a g).1 ++ " " ++ op.Value ++ " " ++ (fullTrace b (fullTrace a g).2).1,
      (fullTrace b (fullTrace a g).2).2)

/-- Whether the evaluation of a tree meets no division whose divisor evaluates to 0. -/
def zeroFree : AstExpr → Rand → Bool
  | .AstOp a b op, g =>
    zeroFree a g &&
      (match a.Eval g with
        | .ok (_, _, g1) =>
          zeroFree b g1 &&
            (match b.Eval g1 with
              | .ok (rv, _, _) => !(decide (op.Value = "/") && decide (rv = 0))
              | .error _ => true)
        | .error _ => true)
  | _, _ => true

/-- Whether a tree evaluates to the value 0 on a random source. -/
def evalsToZero (t : AstExpr) (g : Rand) : Bool :=
  match t.Eval g with
  | .ok (v, _, _) => decide (v = 0)
  | .error _ => false

/-- The trace with the divisions by zero marked: a division whose divisor evaluates to 0
shows `ERROR: DIVIDE BY ZERO` in place of its whole subtree; every other operator stands
between the traces of its operands, and every dice node outside such a division is the
bracketed list of its draws, taken from the random source in evaluation order. -/
def shownTrace : AstExpr → Rand → String
  | .nil, _ => ""
  | .AstConst c, _ => Itoa c
  | .AstDie l r, g => renderDraws (drawsOf g l.toNat r)
  | .AstOp a b op, g =>
    if op.Value = "/" ∧ evalsToZero b (fullTrace a g).2 = true then "ERROR: DIVIDE BY ZERO"
    else shownTrace a g ++ " " ++ op.Value ++ " " ++ shownTrace b (fullTrace a g).2
/-! ## Characters and library functions -/

theorem asciiDigit_val {c : Char} (h : asciiDigit c = true) :
    48 ≤ c.toNat ∧ c.toNat ≤ 57 := by
  simp only [asciiDigit, Bool.and_eq_true, decide_eq_true_eq] at h
  obtain ⟨h1, h2⟩ := h
  rw [Char.le_def] at h1 h2
  simp [UInt32.le_def] at h1 h2
  exact ⟨h1, h2⟩

/-- An ASCII digit is one of the ten characters `0` to `9`. -/
theorem asciiDigit_mem {c : Char} (h : asciiDigit c = true) :
    c ∈ ['0', '1', '2', '3', '4', '5', '6', '7', '8', '9'] := by
  obtain ⟨h1, h2⟩ := asciiDigit_val h
  have hc : c = Char.ofNat c.toNat := (Char.ofNat_toNat c).symm
  generalize c.toNat = n at h1 h2 hc
  subst hc
  interval_cases n <;> decide

/-- Every decidable property of the ten digit characters holds of an ASCII digit. -/
theorem asciiDigit_elim (P : Char → Prop)
    (hP : ∀ d ∈ ['0', '1', '2', '3', '4', '5', '6', '7', '8', '9'], P d)
    {c : Char} (h : asciiDigit c = true) : P c :=
  hP c (asciiDigit_mem h)

theorem asciiDigit_ne_d {c : Char} (h : asciiDigit c = true) : c ≠ 'd' :=
  asciiDigit_elim (fun c => c ≠ 'd') (by decide) h

theorem asciiDigit_not_whitespace {c : Char} (h : asciiDigit c = true) :
    isWhitespace c = false :=
  asciiDigit_elim (fun c => isWhitespace c = false) (by decide) h

theorem asciiDigit_not_transition {c : Char} (h : asciiDigit c = true) :
    isTransition c = false :=
  asciiDigit_elim (fun c => isTransition c = false) (by decide) h

theorem asciiDigit_unicode (nd : Char → Bool) {c : Char} (h : asciiDigit c = true) :
    unicodeIsDigit nd c = true := by
  have h255 : c.val ≤ 0xFF :=
    asciiDigit_elim (fun c => c.val ≤ 0xFF) (by decide) h
  simp only [unicodeIsDigit, h255, if_true]
  exact h

theorem all_asciiDigit_isInt (nd : Char → Bool) {ds : List Char}
    (h : ds.all asciiDigit = true) : isInt nd (String.mk ds) = true := by
  simp only [isInt, List.all_eq_true] at h ⊢
  exact fun c hc => asciiDigit_unicode nd (h c hc)

/-- On a non-empty run of ASCII digits whose value fits, `Atoi` returns the value and
no error. -/
theorem Atoi_digits {ds : List Char} (hne : ds ≠ []) (hd : ds.all asciiDigit = true)
    (hfit : decimalValue ds < 2 ^ 63) :
    Atoi (String.mk ds) = (((decimalValue ds : Nat) : Int), false) := by
  obtain ⟨c, cs, rfl⟩ := List.exists_cons_of_ne_nil hne
  have hc : asciiDigit c = true := by
    simp only [List.all_cons, Bool.and_eq_true] at hd
    exact hd.1
  have h1 : c ≠ '-' := asciiDigit_elim (fun c => c ≠ '-') (by decide) hc
  have h2 : c ≠ '+' := asciiDigit_elim (fun c => c ≠ '+') (by decide) hc
  simpa [Atoi, h1, h2, hd] using hfit

theorem splitOnD_no_d {m : List Char} (h : ∀ c ∈ m, c ≠ 'd') : splitOnD m = [m] := by
  induction m with
  | nil => rfl
  | cons c cs ih =>
    have hc : c ≠ 'd' := h c (List.mem_cons_self _ _)
    have ih2 := ih (fun x hx => h x (List.mem_cons_of_mem _ hx))
    simp [splitOnD, ih2, hc]

theorem splitOnD_one_d {n m : List Char} (hn : ∀ c ∈ n, c ≠ 'd') (hm : ∀ c ∈ m, c ≠ 'd') :
    splitOnD (n ++ 'd' :: m) = [n, m] := by
  induction n with
  | nil => simp [splitOnD, splitOnD_no_d hm]
  | cons c cs ih =>
    have hc : c ≠ 'd' := hn c (List.mem_cons_self _ _)
    have ih2 := ih (fun x hx => hn x (List.mem_cons_of_mem _ hx))
    simp [splitOnD, ih2, hc]

theorem all_asciiDigit_no_d {m : List Char} (h : m.all asciiDigit = true) :
    ∀ c ∈ m, c ≠ 'd' := by
  simp only [List.all_eq_true] at h
  exact fun c hc => asciiDigit_ne_d (h c hc)

/-! ## Cursor lemmas -/

theorem cursorAt_mid (pre post : List Token) (t : Token) :
    cursorAt (pre ++ t :: post) pre.length = pre.length := by
  simp only [cursorAt, List.length_append, List.length_cons]
  omega

theorem getElem?_mid (pre post : List Token) (t : Token) :
    (pre ++ t :: post)[pre.length]? = some t := by
  rw [List.getElem?_append_right (Nat.le_refl _)]
  simp

theorem peek_at {toks pre post : List Token} {t : Token} (es : List String)
    (h : toks = pre ++ t :: post) :
    DiceParser.peek ⟨toks, cursorAt toks pre.length, es⟩ = .ok t := by
  subst h
  simp only [DiceParser.peek, cursorAt_mid, getElem?_mid]

theorem check_at {toks pre post : List Token} {t : Token} (es : List String)
    (ty : TokenType) (h : toks = pre ++ t :: post) :
    DiceParser.check ⟨toks, cursorAt toks pre.length, es⟩ ty = .ok (decide (t.Typ = ty)) := by
  simp [DiceParser.check, peek_at es h]

theorem consume_at {toks pre post : List Token} {t : Token} (es : List String)
    (h : toks = pre ++ t :: post) :
    DiceParser.consume ⟨toks, cursorAt toks pre.length, es⟩
      = .ok (t, ⟨toks, cursorAt toks (pre.length + 1), es⟩) := by
  subst h
  rw [cursorAt_mid]
  cases post with
  | nil =>
    simp only [DiceParser.consume, DiceParser.isAtEnd, cursorAt, getElem?_mid]
    simp
  | cons u us =>
    have hne : ¬ ((pre.length : Int) = ((pre ++ t :: u :: us).length : Int) - 1) := by
      simp only [List.length_append, List.length_cons]
      push_cast
      omega
    have hc : cursorAt (pre ++ t :: u :: us) (pre.length + 1) = pre.length + 1 := by
      simp only [cursorAt, List.length_append, List.length_cons]
      omega
    simp only [DiceParser.consume, DiceParser.isAtEnd, hne, hc, getElem?_mid,
      Nat.add_sub_cancel, decide_False, Bool.not_false, if_true]

theorem check_stop {S : TokenType → Prop} {toks : List Token} {i : Nat} (es : List String)
    (h : StopAt S toks i) {ty : TokenType} (hty : S ty) :
    DiceParser.check ⟨toks, cursorAt toks i, es⟩ ty = .ok false := by
  obtain ⟨tok, h1, h2⟩ := h
  have : tok.Typ ≠ ty := fun e => h2 (e ▸ hty)
  simp [DiceParser.check, DiceParser.peek, h1, this]

/-! ## The parser on sentences of the grammar -/

theorem stopAt_mid {S : TokenType → Prop} {toks pre post : List Token} {t : Token}
    (h : toks = pre ++ t :: post) (ht : ¬ S t.Typ) : StopAt S toks pre.length := by
  subst h
  exact ⟨t, by rw [cursorAt_mid, getElem?_mid], ht⟩

theorem stopAt_weaken {S S' : TokenType → Prop} {toks : List Token} {i : Nat}
    (h : StopAt S toks i) (hS : ∀ t, S' t → S t) : StopAt S' toks i := by
  obtain ⟨tok, h1, h2⟩ := h
  exact ⟨tok, h1, fun h' => h2 (hS _ h')⟩

theorem derives_primary_ne_nil {ts : List Token} {a : AstExpr}
    (h : Derives .Primary ts a) : ts ≠ [] := by
  cases h <;> simp

theorem primary_number (nd : Char → Bool) {ds : List Char} (hne : ds ≠ [])
    (hd : ds.all asciiDigit = true) (hfit : decimalValue ds < 2 ^ 63) :
    Good nd .Primary [⟨.Const, String.mk ds⟩] (.AstConst (decimalValue ds)) := by
  intro fuel pre post es toks htoks hfuel
  obtain ⟨n, rfl⟩ : ∃ n, fuel = n + 1 := ⟨fuel - 1, by simp at hfuel; omega⟩
  have htoks2 : toks = pre ++ (⟨.Const, String.mk ds⟩ : Token) :: post := by simp [htoks]
  simp only [DiceParser.Primary, check_at es _ htoks2, consume_at es htoks2,
    Atoi_digits hne hd hfit, decide_True, List.length_singleton]
  simp

theorem primary_dice (nd : Char → Bool) {n m : List Char} (hn : n ≠ [])
    (hnd : n.all asciiDigit = true) (hnf : decimalValue n < 2 ^ 63) (hm : m ≠ [])
    (hmd : m.all asciiDigit = true) (hmf : decimalValue m < 2 ^ 63) :
    Good nd .Primary [⟨.Die, String.mk (n ++ 'd' :: m)⟩]
      (.AstDie (decimalValue n) (decimalValue m)) := by
  intro fuel pre post es toks htoks hfuel
  obtain ⟨k, rfl⟩ : ∃ k, fuel = k + 1 := ⟨fuel - 1, by simp at hfuel; omega⟩
  have htoks2 : toks = pre ++ (⟨.Die, String.mk (n ++ 'd' :: m)⟩ : Token) :: post := by
    simp [htoks]
  have hsplit := splitOnD_one_d (all_asciiDigit_no_d hnd) (all_asciiDigit_no_d hmd)
  simp only [DiceParser.Primary, check_at es _ htoks2, consume_at es htoks2,
    DiceParser.primaryDie, hsplit, all_asciiDigit_isInt nd hmd, hn,
    Atoi_digits hn hnd hnf, Atoi_digits hm hmd hmf, List.length_singleton]
  simp [Atoi_digits hn hnd hnf]

theorem primary_group (nd : Char → Bool) {ts : List Token} {a : AstExpr}
    (ih : Good nd .Expr ts a) :
    Good nd .Primary (⟨.Group, "("⟩ :: ts ++ [⟨.Group, ")"⟩]) a := by
  intro fuel pre post es toks htoks hfuel
  obtain ⟨k, rfl⟩ : ∃ k, fuel = k + 1 := ⟨fuel - 1, by simp at hfuel; omega⟩
  have hk : ts.length < k := by
    simp only [List.length_append, List.length_cons, List.length_singleton, List.length_nil] at hfuel
    omega
  have h1 : toks = pre ++ (⟨.Group, "("⟩ : Token) :: (ts ++ ⟨.Group, ")"⟩ :: post) := by
    simp [htoks]
  have h2 : toks = (pre ++ [⟨.Group, "("⟩]) ++ ts ++ (⟨.Group, ")"⟩ :: post) := by
    simp [htoks]
  have h3 : toks = (pre ++ ⟨.Group, "("⟩ :: ts) ++ (⟨.Group, ")"⟩ : Token) :: post := by
    simp [htoks]
  have e3 : (pre ++ (⟨.Group, "("⟩ : Token) :: ts).length = pre.length + 1 + ts.length := by
    simp only [List.length_append, List.length_cons, List.length_nil]
    omega
  have hstop : StopAt (fun t => t = .Term ∨ t = .Factor) toks (pre.length + 1 + ts.length) := by
    rw [← e3]
    exact stopAt_mid h3 (by simp)
  have hE := ih k (pre ++ [⟨.Group, "("⟩]) (⟨.Group, ")"⟩ :: post) es toks h2 hk
    (by simpa only [List.length_append, List.length_singleton] using hstop)
  simp only [List.length_append, List.length_singleton] at hE
  have hc := check_at es .Group h3
  have hp := peek_at es h3
  have hcons := consume_at es h3
  rw [e3] at hc hp hcons
  have hE2 : DiceParser.Term (DiceParser.Primary nd k) k
      ⟨toks, cursorAt toks (pre.length + 1), es⟩
      = .ok (a, ⟨toks, cursorAt toks (pre.length + 1 + ts.length), es⟩) := hE
  have elen : pre.length + (⟨.Group, "("⟩ :: ts ++ [(⟨.Group, ")"⟩ : Token)]).length
      = pre.length + 1 + ts.length + 1 := by
    simp only [List.length_append, List.length_cons, List.length_singleton, List.length_nil]
    omega
  simp only [DiceParser.Primary, check_at es _ h1, peek_at es h1, consume_at es h1, hE2,
    hc, hp, hcons, elen]
  simp

theorem stop_factor_of_termRest {acc c : AstExpr} {rest : List Token}
    (hr : Derives (.TermRest acc) rest c) (toks pre post : List Token)
    (htoks : toks = pre ++ rest ++ post)
    (hstop : StopAt (fun t => t = .Term ∨ t = .Factor) toks (pre.length + rest.length)) :
    StopAt (fun t => t = .Factor) toks pre.length := by
  cases hr with
  | termNil =>
    simp only [List.length_nil, Nat.add_zero] at hstop
    exact stopAt_weaken hstop (fun t ht => Or.inr ht)
  | termCons hop hf hrest =>
    exact stopAt_mid (by simpa using htoks) (by simp)

theorem good_factor (nd : Char → Bool) {ts rest : List Token} {a b : AstExpr}
    (ihp : Good nd .Primary ts a) (ihr : Good nd (.FactorRest a) rest b) :
    Good nd .Factor (ts ++ rest) b := by
  intro m k pre post es toks htoks hm hk hstop
  simp only [List.length_append] at hm hk hstop
  have hP := ihp m pre (rest ++ post) es toks (by simp [htoks]) (by omega)
  have hR := ihr m k (pre ++ ts) post es toks (by simp [htoks]) (by omega) (by omega)
    (by simpa only [List.length_append, Nat.add_assoc] using hstop)
  simp only [List.length_append, Nat.add_assoc] at hR
  simp only [DiceParser.Factor, hP, hR, List.length_append]

theorem good_factorNil (nd : Char → Bool) (acc : AstExpr) :
    Good nd (.FactorRest acc) [] acc := by
  intro m k pre post es toks _ _ hk hstop
  obtain ⟨j, rfl⟩ : ∃ j, k = j + 1 := ⟨k - 1, by simp at hk; omega⟩
  simp only [List.length_nil, Nat.add_zero] at hstop ⊢
  simp only [DiceParser.factorLoop, check_stop es hstop rfl]

theorem good_factorCons (nd : Char → Bool) {acc b c : AstExpr} {op : String}
    {ts rest : List Token} (ihp : Good nd .Primary ts b)
    (ihr : Good nd (.FactorRest (.AstOp acc b ⟨.Factor, op⟩)) rest c) :
    Good nd (.FactorRest acc) (⟨.Factor, op⟩ :: ts ++ rest) c := by
  intro m k pre post es toks htoks hm hk hstop
  simp only [List.length_append, List.length_cons] at hm hk hstop
  obtain ⟨j, rfl⟩ : ∃ j, k = j + 1 := ⟨k - 1, by omega⟩
  have h1 : toks = pre ++ (⟨.Factor, op⟩ : Token) :: (ts ++ rest ++ post) := by
    simp [htoks]
  have hP := ihp m (pre ++ [⟨.Factor, op⟩]) (rest ++ post) es toks (by simp [htoks])
    (by omega)
  simp only [List.length_append, List.length_singleton] at hP
  have e : pre.length + (ts.length + 1 + rest.length) = pre.length + 1 + ts.length + rest.length := by
    omega
  rw [e] at hstop
  have hR := ihr m j (pre ++ ⟨.Factor, op⟩ :: ts) post es toks (by simp [htoks]) (by omega)
    (by omega)
    (by
      have e2 : (pre ++ (⟨.Factor, op⟩ : Token) :: ts).length = pre.length + 1 + ts.length := by
        simp only [List.length_append, List.length_cons]
        omega
      rw [e2]
      exact hstop)
  have e2 : (pre ++ (⟨.Factor, op⟩ : Token) :: ts).length = pre.length + 1 + ts.length := by
    simp only [List.length_append, List.length_cons]
    omega
  rw [e2] at hR
  simp only [DiceParser.factorLoop, check_at es _ h1, consume_at es h1, hP, hR,
    List.length_append, List.length_cons, decide_True, e]

theorem good_term (nd : Char → Bool) {ts rest : List Token} {a b : AstExpr}
    (hr : Derives (.TermRest a) rest b)
    (ihf : Good nd .Factor ts a) (ihr : Good nd (.TermRest a) rest b) :
    Good nd .Term (ts ++ rest) b := by
  intro m k pre post es toks htoks hm hk hstop
  simp only [List.length_append] at hm hk hstop
  have hstop2 : StopAt (fun t => t = .Term ∨ t = .Factor) toks
      ((pre ++ ts).length + rest.length) := by
    simpa only [List.length_append, Nat.add_assoc] using hstop
  have hP := ihf m k pre (rest ++ post) es toks (by simp [htoks]) (by omega) (by omega)
    (by
      have := stop_factor_of_termRest hr toks (pre ++ ts) post
        (by simp [htoks]) hstop2
      simpa only [List.length_append] using this)
  have hR := ihr m k (pre ++ ts) post es toks (by simp [htoks]) (by omega) (by omega) hstop2
  simp only [List.length_append, Nat.add_assoc] at hR
  simp only [DiceParser.Term, hP, hR, List.length_append]

theorem good_termNil (nd : Char → Bool) (acc : AstExpr) :
    Good nd (.TermRest acc) [] acc := by
  intro m k pre post es toks _ _ hk hstop
  obtain ⟨j, rfl⟩ : ∃ j, k = j + 1 := ⟨k - 1, by simp at hk; omega⟩
  simp only [List.length_nil, Nat.add_zero] at hstop ⊢
  simp only [DiceParser.termLoop, check_stop es hstop (Or.inl rfl)]

theorem good_termCons (nd : Char → Bool) {acc b c : AstExpr} {op : String}
    {ts rest : List Token}
    (hr : Derives (.TermRest (.AstOp acc b ⟨.Term, op⟩)) rest c)
    (ihf : Good nd .Factor ts b)
    (ihr : Good nd (.TermRest (.AstOp acc b ⟨.Term, op⟩)) rest c) :
    Good nd (.TermRest acc) (⟨.Term, op⟩ :: ts ++ rest) c := by
  intro m k pre post es toks htoks hm hk hstop
  simp only [List.length_append, List.length_cons] at hm hk hstop
  obtain ⟨j, rfl⟩ : ∃ j, k = j + 1 := ⟨k - 1, by omega⟩
  have h1 : toks = pre ++ (⟨.Term, op⟩ : Token) :: (ts ++ rest ++ post) := by
    simp [htoks]
  have e : pre.length + (ts.length + 1 + rest.length) = pre.length + 1 + ts.length + rest.length := by
    omega
  rw [e] at hstop
  have e2 : (pre ++ (⟨.Term, op⟩ : Token) :: ts).length = pre.length + 1 + ts.length := by
    simp only [List.length_append, List.length_cons]
    omega
  have hstop2 : StopAt (fun t => t = .Term ∨ t = .Factor) toks
      ((pre ++ (⟨.Term, op⟩ : Token) :: ts).length + rest.length) := by
    rw [e2]
    exact hstop
  have hP := ihf m j (pre ++ [⟨.Term, op⟩]) (rest ++ post) es toks (by simp [htoks])
    (by omega) (by omega)
    (by
      have := stop_factor_of_termRest hr toks (pre ++ ⟨.Term, op⟩ :: ts) post
        (by simp [htoks]) hstop2
      rw [e2] at this
      simpa only [List.length_append, List.length_singleton] using this)
  simp only [List.length_append, List.length_singleton] at hP
  have hR := ihr m j (pre ++ ⟨.Term, op⟩ :: ts) post es toks (by simp [htoks]) (by omega)
    (by omega) hstop2
  rw [e2] at hR
  simp only [DiceParser.termLoop, check_at es _ h1, consume_at es h1, hP, hR,
    List.length_append, List.length_cons, decide_True, e]

/-- The parser is correct on every sentence of every rule. -/
theorem derives_good (nd : Char → Bool) {r : Rule} {ts : List Token} {a : AstExpr}
    (h : Derives r ts a) : Good nd r ts a := by
  induction h with
  | expr _ ih =>
    intro fuel pre post es toks htoks hfuel hstop
    exact ih fuel fuel pre post es toks htoks hfuel hfuel hstop
  | term _ hr ihf ihr => exact good_term nd hr ihf ihr
  | termNil => exact good_termNil nd _
  | termCons _ _ hr ihf ihr => exact good_termCons nd hr ihf ihr
  | factor _ _ ihp ihr => exact good_factor nd ihp ihr
  | factorNil => exact good_factorNil nd _
  | factorCons _ _ _ ihp ihr => exact good_factorCons nd ihp ihr
  | number hne hd hfit => exact primary_number nd hne hd hfit
  | dice hn hnd hnf hm hmd hmf => exact primary_dice nd hn hnd hnf hm hmd hmf
  | group _ ih => exact primary_group nd ih

theorem getLast?_append_closed {P : Token → Prop} {l₁ l₂ : List Token}
    (h1 : ∃ tok, l₁.getLast? = some tok ∧ P tok)
    (h2 : l₂ = [] ∨ ∃ tok, l₂.getLast? = some tok ∧ P tok) :
    ∃ tok, (l₁ ++ l₂).getLast? = some tok ∧ P tok := by
  rcases h2 with rfl | ⟨tok, ht, hP⟩
  · simpa using h1
  · exact ⟨tok, by simp [List.getLast?_append, ht], hP⟩

theorem getLast?_cons_closed {P : Token → Prop} {l : List Token} (x : Token)
    (h : ∃ tok, l.getLast? = some tok ∧ P tok) :
    ∃ tok, (x :: l).getLast? = some tok ∧ P tok := by
  obtain ⟨tok, ht, hP⟩ := h
  cases l with
  | nil => simp at ht
  | cons y ys => exact ⟨tok, by rw [List.getLast?_cons_cons]; exact ht, hP⟩

/-- A sentence never ends in an operator token. -/
theorem derives_endsClosed {r : Rule} {ts : List Token} {a : AstExpr}
    (h : Derives r ts a) : EndsClosed r ts := by
  induction h with
  | expr _ ih => exact ih
  | term _ _ ihf ihr => exact getLast?_append_closed ihf ihr
  | termNil => exact Or.inl rfl
  | termCons _ _ _ ihf ihr =>
    exact Or.inr (getLast?_append_closed (getLast?_cons_closed _ ihf) ihr)
  | factor _ _ ihp ihr => exact getLast?_append_closed ihp ihr
  | factorNil => exact Or.inl rfl
  | factorCons _ _ _ ihp ihr =>
    exact Or.inr (getLast?_append_closed (getLast?_cons_closed _ ihp) ihr)
  | number _ _ _ => exact ⟨_, rfl, by simp, by simp⟩
  | dice _ _ _ _ _ _ => exact ⟨_, rfl, by simp, by simp⟩
  | group _ _ =>
    refine ⟨⟨.Group, ")"⟩, ?_, by simp, by simp⟩
    rw [List.getLast?_append]
    rfl

/-- The parser started from `NewDiceParser` on a sentence of the grammar. -/
theorem expr_of_derives (nd : Char → Bool) {ts : List Token} {a : AstExpr}
    (h : Derives .Expr ts a) (fuel : Nat) (hfuel : ts.length < fuel) :
    DiceParser.Expr nd fuel (NewDiceParser ts) = .ok (a, ⟨ts, ts.length - 1, []⟩) := by
  obtain ⟨tok, hlast, h1, h2⟩ := derives_endsClosed h
  have hstop : StopAt (fun t => t = .Term ∨ t = .Factor) ts (([] : List Token).length + ts.length) := by
    refine ⟨tok, ?_, fun hc => hc.elim h1 h2⟩
    rw [List.getLast?_eq_getElem?] at hlast
    simpa [cursorAt] using hlast
  have := derives_good nd h fuel [] [] [] ts (by simp) hfuel hstop
  simpa [cursorAt, NewDiceParser] using this

/-- C1. On every token sequence that is a sentence of the grammar (number and dice
literals fitting in an `int`), `Expr` started from `NewDiceParser` returns without
fault as soon as the fuel exceeds the number of tokens, records no error and returns
exactly the tree the grammar prescribes; the cursor ends on the last token. -/
theorem C1_parser_accepts_grammar (nd : Char → Bool) {ts : List Token} {a : AstExpr}
    (h : Derives .Expr ts a) (fuel : Nat) (hfuel : ts.length < fuel) :
    DiceParser.Expr nd fuel (NewDiceParser ts) = .ok (a, ⟨ts, ts.length - 1, []⟩) :=
  expr_of_derives nd h fuel hfuel

/-- C1, applied to the tokens of `(2+3)*4d6`. -/
theorem C1_parser_accepts_grammar_witness :
    Derives .Expr
      [⟨.Group, "("⟩, ⟨.Const, "2"⟩, ⟨.Term, "+"⟩, ⟨.Const, "3"⟩, ⟨.Group, ")"⟩,
        ⟨.Factor, "*"⟩, ⟨.Die, "4d6"⟩]
      (.AstOp (.AstOp (.AstConst 2) (.AstConst 3) ⟨.Term, "+"⟩) (.AstDie 4 6) ⟨.Factor, "*"⟩)
    ∧ DiceParser.Expr ndSample 8 (NewDiceParser
      [⟨.Group, "("⟩, ⟨.Const, "2"⟩, ⟨.Term, "+"⟩, ⟨.Const, "3"⟩, ⟨.Group, ")"⟩,
        ⟨.Factor, "*"⟩, ⟨.Die, "4d6"⟩])
      = .ok (.AstOp (.AstOp (.AstConst 2) (.AstConst 3) ⟨.Term, "+"⟩) (.AstDie 4 6)
          ⟨.Factor, "*"⟩,
        ⟨[⟨.Group, "("⟩, ⟨.Const, "2"⟩, ⟨.Term, "+"⟩, ⟨.Const, "3"⟩, ⟨.Group, ")"⟩,
          ⟨.Factor, "*"⟩, ⟨.Die, "4d6"⟩], 6, []⟩) :=
  have two : Derives .Primary [⟨.Const, "2"⟩] (.AstConst 2) :=
    @Derives.number ['2'] (by decide) (by decide) (by decide)
  have three : Derives .Primary [⟨.Const, "3"⟩] (.AstConst 3) :=
    @Derives.number ['3'] (by decide) (by decide) (by decide)
  have die : Derives .Primary [⟨.Die, "4d6"⟩] (.AstDie 4 6) :=
    @Derives.dice ['4'] ['6'] (by decide) (by decide) (by decide) (by decide)
      (by decide) (by decide)
  have inner : Derives .Expr [⟨.Const, "2"⟩, ⟨.Term, "+"⟩, ⟨.Const, "3"⟩]
      (.AstOp (.AstConst 2) (.AstConst 3) ⟨.Term, "+"⟩) :=
    Derives.expr (Derives.term (Derives.factor two Derives.factorNil)
      (Derives.termCons (Or.inl rfl) (Derives.factor three Derives.factorNil)
        Derives.termNil))
  have whole := Derives.expr (Derives.term
    (Derives.factor (Derives.group inner)
      (Derives.factorCons (Or.inl rfl) die Derives.factorNil)) Derives.termNil)
  ⟨whole, C1_parser_accepts_grammar ndSample whole 8 (by decide)⟩

/-! ## The lexer -/

theorem tokenizeLoop_plain (nd : Char → Bool) (cs rest : List Char) (tokens : List Token)
    (sb : List Char)
    (h : ∀ c ∈ cs, isWhitespace c = false ∧ isTransition c = false) :
    tokenizeLoop nd (cs ++ rest) tokens sb = tokenizeLoop nd rest tokens (sb ++ cs) := by
  induction cs generalizing sb with
  | nil => simp
  | cons c cs ih =>
    obtain ⟨hw, ht⟩ := h c (List.mem_cons_self _ _)
    have ih2 := ih (sb ++ [c]) (fun x hx => h x (List.mem_cons_of_mem _ hx))
    rw [List.cons_append, tokenizeLoop]
    simp only [hw, ht, Bool.false_eq_true, if_false]
    rw [ih2, List.append_assoc, List.singleton_append]

theorem tokenizeLoop_plain_end (nd : Char → Bool) (cs : List Char) (tokens : List Token)
    (sb : List Char)
    (h : ∀ c ∈ cs, isWhitespace c = false ∧ isTransition c = false) :
    tokenizeLoop nd cs tokens sb = tokenizeLoop nd [] tokens (sb ++ cs) := by
  have := tokenizeLoop_plain nd cs [] tokens sb h
  rwa [List.append_nil] at this

theorem all_asciiDigit_plain {ds : List Char} (h : ds.all asciiDigit = true) :
    ∀ c ∈ ds, isWhitespace c = false ∧ isTransition c = false := by
  simp only [List.all_eq_true] at h
  exact fun c hc => ⟨asciiDigit_not_whitespace (h c hc), asciiDigit_not_transition (h c hc)⟩

theorem LexToken_digits (nd : Char → Bool) {ds : List Char} (h : ds.all asciiDigit = true) :
    LexToken nd (String.mk ds) = (⟨.Const, String.mk ds⟩, none) := by
  simp [LexToken, all_asciiDigit_isInt nd h]

/-- At the end of the input a pending run of digits is flushed as one Number token. -/
theorem tokenizeLoop_end_digits (nd : Char → Bool) (tokens : List Token) {ds : List Char}
    (hne : ds ≠ []) (h : ds.all asciiDigit = true) :
    tokenizeLoop nd [] tokens ds = .ok (tokens ++ [⟨.Const, String.mk ds⟩], none) := by
  have hlen : ds.length ≠ 0 := fun h0 => hne (List.length_eq_zero.mp h0)
  simp [tokenizeLoop, hlen, LexToken_digits nd h]

/-- At a transition character a pending run of digits is flushed as one Number token
and the character becomes a token of its own. -/
theorem tokenizeLoop_trans_digits (nd : Char → Bool) (c : Char) (typ : TokenType)
    (rest : List Char) (tokens : List Token) {ds : List Char}
    (hw : isWhitespace c = false) (ht : isTransition c = true)
    (hty : transitionType c = some typ)
    (hne : ds ≠ []) (h : ds.all asciiDigit = true) :
    tokenizeLoop nd (c :: rest) tokens ds
      = tokenizeLoop nd rest
          (tokens ++ [⟨.Const, String.mk ds⟩] ++ [⟨typ, String.singleton c⟩]) [] := by
  have hlen : ds.length ≠ 0 := fun h0 => hne (List.length_eq_zero.mp h0)
  simp [tokenizeLoop, hw, ht, hty, hlen, LexToken_digits nd h]

/-- At a transition character with nothing pending only the character's token is
emitted. -/
theorem tokenizeLoop_trans_empty (nd : Char → Bool) (c : Char) (typ : TokenType)
    (rest : List Char) (tokens : List Token)
    (hw : isWhitespace c = false) (ht : isTransition c = true)
    (hty : transitionType c = some typ) :
    tokenizeLoop nd (c :: rest) tokens []
      = tokenizeLoop nd rest (tokens ++ [⟨typ, String.singleton c⟩]) [] := by
  simp [tokenizeLoop, hw, ht, hty]

theorem not_latin1_ne {c : Char} (h : ¬ c.val ≤ 0xFF) (k : Char) (hk : k.val ≤ 0xFF) :
    c ≠ k := fun e => h (e ▸ hk)

/-- No character that `unicode.IsDigit` accepts is skipped or is a transition. -/
theorem unicodeIsDigit_plain (nd : Char → Bool) {c : Char}
    (h : unicodeIsDigit nd c = true) :
    isWhitespace c = false ∧ isTransition c = false := by
  by_cases hl : c.val ≤ 0xFF
  · have hd : asciiDigit c = true := by
      simpa only [unicodeIsDigit, hl, if_true] using h
    exact ⟨asciiDigit_not_whitespace hd, asciiDigit_not_transition hd⟩
  · have hne : ∀ k : Char, k.val ≤ 0xFF → c ≠ k := fun k hk => not_latin1_ne hl k hk
    constructor
    · simp [isWhitespace, hne '\t' (by decide), hne '\n' (by decide),
        hne (Char.ofNat 0x0B) (by decide), hne (Char.ofNat 0x0C) (by decide),
        hne '\r' (by decide), hne ' ' (by decide), hne (Char.ofNat 0x85) (by decide),
        hne (Char.ofNat 0xA0) (by decide)]
    · simp [isTransition, hne '+' (by decide), hne '-' (by decide), hne '*' (by decide),
        hne '/' (by decide), hne '(' (by decide), hne ')' (by decide)]

/-- C7. For every non-empty string of decimal digits (characters `unicode.IsDigit`
accepts, among them the ASCII digits `0` to `9`) `tokenizeExpr` succeeds and returns
exactly one token, of type `Const`, whose value is the string unchanged. -/
theorem C7_digits_one_number_token (nd : Char → Bool) (s : String) (hne : s ≠ "")
    (hd : ∀ c ∈ s.data, unicodeIsDigit nd c = true) :
    tokenizeExpr nd s = .ok ([⟨.Const, s⟩], none) := by
  have hlen : s.data.length ≠ 0 := fun h => hne (String.ext (List.length_eq_zero.mp h))
  have hint : isInt nd s = true := List.all_eq_true.mpr hd
  have h1 := tokenizeLoop_plain nd s.data [] [] []
    (fun c hc => unicodeIsDigit_plain nd (hd c hc))
  simp only [List.append_nil, List.nil_append] at h1
  have hlen2 : ¬ s.length = 0 := hlen
  rw [tokenizeExpr, h1]
  simp [tokenizeLoop, hlen2, LexToken, hint]

/-- C7, applied to the string `2024`. -/
theorem C7_digits_one_number_token_witness :
    "2024" ≠ "" ∧ (∀ c ∈ "2024".data, unicodeIsDigit ndSample c = true) ∧
      tokenizeExpr ndSample "2024" = .ok ([⟨.Const, "2024"⟩], none) :=
  ⟨by decide, by decide, C7_digits_one_number_token ndSample "2024" (by decide) (by decide)⟩

theorem dropWhile_digits_d {n : List Char} (m : List Char) (hn : n.all asciiDigit = true) :
    (n ++ 'd' :: m).dropWhile asciiDigit = 'd' :: m := by
  induction n with
  | nil => rfl
  | cons c cs ih =>
    simp only [List.all_cons, Bool.and_eq_true] at hn
    simp [List.dropWhile, hn.1, ih hn.2]

theorem dieExprMatch_form {n m : List Char} (hn : n.all asciiDigit = true) (hm : m ≠ [])
    (hmd : m.all asciiDigit = true) : dieExprMatch (String.mk (n ++ 'd' :: m)) = true := by
  simp only [dieExprMatch, dropWhile_digits_d m hn, hmd, Bool.and_true]
  cases m with
  | nil => exact absurd rfl hm
  | cons _ _ => rfl

theorem isInt_form (nd : Char → Bool) (n m : List Char) :
    isInt nd (String.mk (n ++ 'd' :: m)) = false := by
  have hd : unicodeIsDigit nd 'd' = false := rfl
  simp [isInt, hd]

theorem head?_form {n : List Char} (m : List Char) (hn : n.all asciiDigit = true) :
    (n ++ 'd' :: m).head? = some 'd' ↔ n = [] := by
  cases n with
  | nil => simp
  | cons c cs =>
    simp only [List.all_cons, Bool.and_eq_true] at hn
    simpa using asciiDigit_ne_d hn.1

/-- The result of `LexToken` on a text of the form digits, `d`, digits. -/
theorem LexToken_form (nd : Char → Bool) {n m : List Char} (hn : n.all asciiDigit = true)
    (hm : m ≠ []) (hmd : m.all asciiDigit = true) :
    LexToken nd (String.mk (n ++ 'd' :: m))
      = (⟨.Die, String.mk ((if n = [] then ['1'] else n) ++ 'd' :: m)⟩, none) := by
  simp only [LexToken, isInt_form, dieExprMatch_form hn hm hmd, head?_form m hn,
    Bool.false_eq_true, if_false, if_true]
  by_cases h : n = []
  · subst h
    rfl
  · simp [h]

/-! ## Precedence and associativity -/

theorem derives_number {ds : List Char} (h : IsIntLiteral ds) :
    Derives .Primary [numTok ds] (.AstConst (decimalValue ds)) :=
  Derives.number h.1 (List.all_eq_true.mpr h.2.1) h.2.2

/-- The tokens of `a+b*c`. -/
theorem tokenize_sum_product (nd : Char → Bool) {a b c : List Char} (ha : IsIntLiteral a)
    (hb : IsIntLiteral b) (hc : IsIntLiteral c) :
    tokenizeExpr nd (String.mk (a ++ '+' :: (b ++ '*' :: c)))
      = .ok ([numTok a, ⟨.Term, "+"⟩, numTok b, ⟨.Factor, "*"⟩, numTok c], none) := by
  have ha2 := List.all_eq_true.mpr ha.2.1
  have hb2 := List.all_eq_true.mpr hb.2.1
  have hc2 := List.all_eq_true.mpr hc.2.1
  rw [tokenizeExpr]
  show tokenizeLoop nd (a ++ '+' :: (b ++ '*' :: c)) [] [] = _
  rw [tokenizeLoop_plain nd a _ _ _ (all_asciiDigit_plain ha2)]
  simp only [List.nil_append]
  rw [tokenizeLoop_trans_digits nd '+' .Term _ _ rfl rfl rfl ha.1 ha2,
    tokenizeLoop_plain nd b _ _ _ (all_asciiDigit_plain hb2)]
  simp only [List.nil_append]
  rw [tokenizeLoop_trans_digits nd '*' .Factor _ _ rfl rfl rfl hb.1 hb2,
    tokenizeLoop_plain_end nd c _ _ (all_asciiDigit_plain hc2)]
  simp only [List.nil_append]
  rw [tokenizeLoop_end_digits nd _ hc.1 hc2]
  rfl

/-- The tokens of `(a+b)*c`. -/
theorem tokenize_group_product (nd : Char → Bool) {a b c : List Char} (ha : IsIntLiteral a)
    (hb : IsIntLiteral b) (hc : IsIntLiteral c) :
    tokenizeExpr nd (String.mk ('(' :: (a ++ '+' :: (b ++ ')' :: '*' :: c))))
      = .ok ([⟨.Group, "("⟩, numTok a, ⟨.Term, "+"⟩, numTok b, ⟨.Group, ")"⟩,
          ⟨.Factor, "*"⟩, numTok c], none) := by
  have ha2 := List.all_eq_true.mpr ha.2.1
  have hb2 := List.all_eq_true.mpr hb.2.1
  have hc2 := List.all_eq_true.mpr hc.2.1
  rw [tokenizeExpr]
  show tokenizeLoop nd ('(' :: (a ++ '+' :: (b ++ ')' :: '*' :: c))) [] [] = _
  rw [tokenizeLoop_trans_empty nd '(' .Group _ _ rfl rfl rfl,
    tokenizeLoop_plain nd a _ _ _ (all_asciiDigit_plain ha2)]
  simp only [List.nil_append]
  rw [tokenizeLoop_trans_digits nd '+' .Term _ _ rfl rfl rfl ha.1 ha2,
    tokenizeLoop_plain nd b _ _ _ (all_asciiDigit_plain hb2)]
  simp only [List.nil_append]
  rw [tokenizeLoop_trans_digits nd ')' .Group _ _ rfl rfl rfl hb.1 hb2,
    tokenizeLoop_trans_empty nd '*' .Factor _ _ rfl rfl rfl,
    tokenizeLoop_plain_end nd c _ _ (all_asciiDigit_plain hc2)]
  simp only [List.nil_append]
  rw [tokenizeLoop_end_digits nd _ hc.1 hc2]
  rfl

theorem derives_sum_product {a b c : List Char} (ha : IsIntLiteral a)
    (hb : IsIntLiteral b) (hc : IsIntLiteral c) :
    Derives .Expr [numTok a, ⟨.Term, "+"⟩, numTok b, ⟨.Factor, "*"⟩, numTok c]
      (.AstOp (.AstConst (decimalValue a))
        (.AstOp (.AstConst (decimalValue b)) (.AstConst (decimalValue c)) ⟨.Factor, "*"⟩)
        ⟨.Term, "+"⟩) :=
  Derives.expr (Derives.term (Derives.factor (derives_number ha) Derives.factorNil)
    (Derives.termCons (Or.inl rfl)
      (Derives.factor (derives_number hb)
        (Derives.factorCons (Or.inl rfl) (derives_number hc) Derives.factorNil))
      Derives.termNil))

theorem derives_group_product {a b c : List Char} (ha : IsIntLiteral a)
    (hb : IsIntLiteral b) (hc : IsIntLiteral c) :
    Derives .Expr [⟨.Group, "("⟩, numTok a, ⟨.Term, "+"⟩, numTok b, ⟨.Group, ")"⟩,
        ⟨.Factor, "*"⟩, numTok c]
      (.AstOp
        (.AstOp (.AstConst (decimalValue a)) (.AstConst (decimalValue b)) ⟨.Term, "+"⟩)
        (.AstConst (decimalValue c)) ⟨.Factor, "*"⟩) :=
  Derives.expr (Derives.term
    (Derives.factor
      (Derives.group (Derives.expr (Derives.term
        (Derives.factor (derives_number ha) Derives.factorNil)
        (Derives.termCons (Or.inl rfl)
          (Derives.factor (derives_number hb) Derives.factorNil) Derives.termNil))))
      (Derives.factorCons (Or.inl rfl) (derives_number hc) Derives.factorNil))
    Derives.termNil)

/-- C2 as amended. For all number literals `a`, `b`, `c` that fit in an `int`,
tokenizing and parsing `a+b*c` yields `AstOp{a, AstOp{b, c, *}, +}` and tokenizing and
parsing `(a+b)*c` yields `AstOp{AstOp{a, b, +}, c, *}`, both with no parse errors; the
tree of `2+3*4` evaluates to 14 and the tree of `(2+3)*4` to 20. -/
theorem C2_precedence (nd : Char → Bool) (a b c : List Char) (ha : IsIntLiteral a)
    (hb : IsIntLiteral b) (hc : IsIntLiteral c) (fuel : Nat) (hfuel : 7 < fuel) :
    (tokenizeExpr nd (String.mk (a ++ '+' :: (b ++ '*' :: c)))
        = .ok ([numTok a, ⟨.Term, "+"⟩, numTok b, ⟨.Factor, "*"⟩, numTok c], none)
      ∧ DiceParser.Expr nd fuel
          (NewDiceParser [numTok a, ⟨.Term, "+"⟩, numTok b, ⟨.Factor, "*"⟩, numTok c])
        = .ok (.AstOp (.AstConst (decimalValue a))
            (.AstOp (.AstConst (decimalValue b)) (.AstConst (decimalValue c))
              ⟨.Factor, "*"⟩) ⟨.Term, "+"⟩,
          ⟨[numTok a, ⟨.Term, "+"⟩, numTok b, ⟨.Factor, "*"⟩, numTok c], 4, []⟩))
    ∧ (tokenizeExpr nd (String.mk ('(' :: (a ++ '+' :: (b ++ ')' :: '*' :: c))))
        = .ok ([⟨.Group, "("⟩, numTok a, ⟨.Term, "+"⟩, numTok b, ⟨.Group, ")"⟩,
            ⟨.Factor, "*"⟩, numTok c], none)
      ∧ DiceParser.Expr nd fuel
          (NewDiceParser [⟨.Group, "("⟩, numTok a, ⟨.Term, "+"⟩, numTok b, ⟨.Group, ")"⟩,
            ⟨.Factor, "*"⟩, numTok c])
        = .ok (.AstOp
            (.AstOp (.AstConst (decimalValue a)) (.AstConst (decimalValue b))
              ⟨.Term, "+"⟩) (.AstConst (decimalValue c)) ⟨.Factor, "*"⟩,
          ⟨[⟨.Group, "("⟩, numTok a, ⟨.Term, "+"⟩, numTok b, ⟨.Group, ")"⟩,
            ⟨.Factor, "*"⟩, numTok c], 6, []⟩))
    ∧ (∀ g : Rand, (AstExpr.AstOp (.AstConst 2)
          (.AstOp (.AstConst 3) (.AstConst 4) ⟨.Factor, "*"⟩) ⟨.Term, "+"⟩).Eval g
        = .ok (14, "2 + 3 * 4", g))
    ∧ (∀ g : Rand, (AstExpr.AstOp
          (.AstOp (.AstConst 2) (.AstConst 3) ⟨.Term, "+"⟩) (.AstConst 4)
            ⟨.Factor, "*"⟩).Eval g
        = .ok (20, "2 + 3 * 4", g)) :=
  ⟨⟨tokenize_sum_product nd ha hb hc,
      expr_of_derives nd (derives_sum_product ha hb hc) fuel
        (by simp only [List.length_cons, List.length_nil]; omega)⟩,
    ⟨tokenize_group_product nd ha hb hc,
      expr_of_derives nd (derives_group_product ha hb hc) fuel
        (by simp only [List.length_cons, List.length_nil]; omega)⟩,
    fun _ => rfl, fun _ => rfl⟩

/-- C2, applied to the literals `2`, `3` and `4`. -/
theorem C2_precedence_witness :
    IsIntLiteral ['2'] ∧ IsIntLiteral ['3'] ∧ IsIntLiteral ['4'] ∧
    tokenizeExpr ndSample "2+3*4"
      = .ok ([⟨.Const, "2"⟩, ⟨.Term, "+"⟩, ⟨.Const, "3"⟩, ⟨.Factor, "*"⟩, ⟨.Const, "4"⟩],
          none) ∧
    tokenizeExpr ndSample "(2+3)*4"
      = .ok ([⟨.Group, "("⟩, ⟨.Const, "2"⟩, ⟨.Term, "+"⟩, ⟨.Const, "3"⟩, ⟨.Group, ")"⟩,
          ⟨.Factor, "*"⟩, ⟨.Const, "4"⟩], none) :=
  have h := C2_precedence ndSample ['2'] ['3'] ['4'] (by decide) (by decide) (by decide) 8
    (by decide)
  ⟨by decide, by decide, by decide, h.1.1, h.2.1.1⟩

/-- C2 as stated fails on a literal that does not fit in an `int`: the tokens of
`9223372036854775808+1*1` parse with a recorded error, and the tree holds the largest
`int` in place of the literal. -/
theorem C2_counterexample :
    tokenizeExpr ndSample "9223372036854775808+1*1"
      = .ok ([⟨.Const, "9223372036854775808"⟩, ⟨.Term, "+"⟩, ⟨.Const, "1"⟩,
          ⟨.Factor, "*"⟩, ⟨.Const, "1"⟩], none) ∧
    DiceParser.Expr ndSample 8 (NewDiceParser
        [⟨.Const, "9223372036854775808"⟩, ⟨.Term, "+"⟩, ⟨.Const, "1"⟩, ⟨.Factor, "*"⟩,
          ⟨.Const, "1"⟩])
      = .ok (.AstOp (.AstConst 9223372036854775807)
          (.AstOp (.AstConst 1) (.AstConst 1) ⟨.Factor, "*"⟩) ⟨.Term, "+"⟩,
        ⟨[⟨.Const, "9223372036854775808"⟩, ⟨.Term, "+"⟩, ⟨.Const, "1"⟩, ⟨.Factor, "*"⟩,
          ⟨.Const, "1"⟩], 4,
          ["Found a NUMBER token that was not purely numeric: '9223372036854775808'"]⟩) :=
  ⟨by rfl, by rfl⟩

/-! ### Chains -/

theorem derives_termRest_chain (rest : List (String × List Char)) (acc : AstExpr)
    (hrest : ∀ p ∈ rest, IsIntLiteral p.2) (hops : ∀ p ∈ rest, p.1 = "+" ∨ p.1 = "-") :
    Derives (.TermRest acc) (rest.flatMap (fun p => [⟨.Term, p.1⟩, numTok p.2]))
      (rest.foldl (fun acc p => .AstOp acc (.AstConst (decimalValue p.2)) ⟨.Term, p.1⟩)
        acc) := by
  induction rest generalizing acc with
  | nil => exact Derives.termNil
  | cons p ps ih =>
    have h1 := ih (.AstOp acc (.AstConst (decimalValue p.2)) ⟨.Term, p.1⟩)
      (fun q hq => hrest q (List.mem_cons_of_mem _ hq))
      (fun q hq => hops q (List.mem_cons_of_mem _ hq))
    exact Derives.termCons (hops p (List.mem_cons_self _ _))
      (Derives.factor (derives_number (hrest p (List.mem_cons_self _ _)))
        Derives.factorNil) h1

theorem derives_factorRest_chain (rest : List (String × List Char)) (acc : AstExpr)
    (hrest : ∀ p ∈ rest, IsIntLiteral p.2) (hops : ∀ p ∈ rest, p.1 = "*" ∨ p.1 = "/") :
    Derives (.FactorRest acc) (rest.flatMap (fun p => [⟨.Factor, p.1⟩, numTok p.2]))
      (rest.foldl (fun acc p => .AstOp acc (.AstConst (decimalValue p.2)) ⟨.Factor, p.1⟩)
        acc) := by
  induction rest generalizing acc with
  | nil => exact Derives.factorNil
  | cons p ps ih =>
    have h1 := ih (.AstOp acc (.AstConst (decimalValue p.2)) ⟨.Factor, p.1⟩)
      (fun q hq => hrest q (List.mem_cons_of_mem _ hq))
      (fun q hq => hops q (List.mem_cons_of_mem _ hq))
    exact Derives.factorCons (hops p (List.mem_cons_self _ _))
      (derives_number (hrest p (List.mem_cons_self _ _))) h1

/-- A chain of number operands is a sentence, and its tree is the left-nested one. -/
theorem derives_chain (ty : TokenType) (x1 : List Char) (rest : List (String × List Char))
    (hx1 : IsIntLiteral x1) (hrest : ∀ p ∈ rest, IsIntLiteral p.2)
    (hops : (ty = .Term ∧ ∀ p ∈ rest, p.1 = "+" ∨ p.1 = "-") ∨
      (ty = .Factor ∧ ∀ p ∈ rest, p.1 = "*" ∨ p.1 = "/")) :
    Derives .Expr (chainTokens ty x1 rest) (chainTree ty x1 rest) := by
  rcases hops with ⟨rfl, hops⟩ | ⟨rfl, hops⟩
  · exact Derives.expr (Derives.term (Derives.factor (derives_number hx1) Derives.factorNil)
      (derives_termRest_chain rest _ hrest hops))
  · have := Derives.expr (Derives.term (Derives.factor (derives_number hx1)
      (derives_factorRest_chain rest _ hrest hops)) Derives.termNil)
    simpa [chainTokens, chainTree] using this

theorem evalOp_applyOp {op : String}
    (hop : op = "+" ∨ op = "-" ∨ op = "*" ∨ op = "/") (l r : Int) (sb : String) :
    ∃ work, evalOp op l r sb = .ok (applyOp op l r, work) := by
  rcases hop with rfl | rfl | rfl | rfl
  · exact ⟨sb, rfl⟩
  · exact ⟨sb, rfl⟩
  · exact ⟨sb, rfl⟩
  · by_cases hr : r = 0
    · exact ⟨"ERROR: DIVIDE BY ZERO", by simp [evalOp, applyOp, hr]⟩
    · exact ⟨sb, by simp [evalOp, applyOp, hr]⟩

/-- Evaluating a left-nested chain over an evaluated first operand is the left fold of
the operations, and draws nothing from the random source. -/
theorem eval_chain (ty : TokenType) (rest : List (String × List Char))
    (hops : ∀ p ∈ rest, p.1 = "+" ∨ p.1 = "-" ∨ p.1 = "*" ∨ p.1 = "/")
    (acc : AstExpr) (v : Int) (t : String) (g : Rand) (hacc : acc.Eval g = .ok (v, t, g)) :
    ∃ trace,
      (rest.foldl (fun acc p => AstExpr.AstOp acc (.AstConst (decimalValue p.2)) ⟨ty, p.1⟩)
        acc).Eval g
      = .ok (rest.foldl (fun acc p => applyOp p.1 acc (decimalValue p.2)) v, trace, g) := by
  induction rest generalizing acc v t with
  | nil => exact ⟨t, hacc⟩
  | cons p ps ih =>
    obtain ⟨work, hw⟩ := evalOp_applyOp (hops p (List.mem_cons_self _ _)) v
      (decimalValue p.2) (t ++ " " ++ p.1 ++ " " ++ Itoa (decimalValue p.2))
    have hstep : (AstExpr.AstOp acc (.AstConst (decimalValue p.2)) ⟨ty, p.1⟩).Eval g
        = .ok (applyOp p.1 v (decimalValue p.2), work, g) := by
      simp only [AstExpr.Eval, hacc, hw]
    exact ih (fun q hq => hops q (List.mem_cons_of_mem _ hq)) _ _ _ hstep

/-- C3 as amended. For every chain of number operands that fit in an `int`, joined by
operators that are all additive or all multiplicative, parsing yields the left-nested
tree with no errors and evaluation is the left fold of the operations; the tokens of
`1-2-3` are such a chain, its tree is `(1-2)-3` and its value is -4. -/
theorem C3_left_associative (nd : Char → Bool) (ty : TokenType) (x1 : List Char)
    (rest : List (String × List Char)) (hx1 : IsIntLiteral x1)
    (hrest : ∀ p ∈ rest, IsIntLiteral p.2)
    (hops : (ty = .Term ∧ ∀ p ∈ rest, p.1 = "+" ∨ p.1 = "-") ∨
      (ty = .Factor ∧ ∀ p ∈ rest, p.1 = "*" ∨ p.1 = "/"))
    (fuel : Nat) (hfuel : (chainTokens ty x1 rest).length < fuel) :
    DiceParser.Expr nd fuel (NewDiceParser (chainTokens ty x1 rest))
        = .ok (chainTree ty x1 rest,
            ⟨chainTokens ty x1 rest, (chainTokens ty x1 rest).length - 1, []⟩)
    ∧ (∀ g : Rand, ∃ trace,
        (chainTree ty x1 rest).Eval g = .ok (chainValue x1 rest, trace, g))
    ∧ tokenizeExpr nd "1-2-3"
        = .ok (chainTokens .Term ['1'] [("-", ['2']), ("-", ['3'])], none)
    ∧ chainTree .Term ['1'] [("-", ['2']), ("-", ['3'])]
        = .AstOp (.AstOp (.AstConst 1) (.AstConst 2) ⟨.Term, "-"⟩) (.AstConst 3)
            ⟨.Term, "-"⟩
    ∧ chainValue ['1'] [("-", ['2']), ("-", ['3'])] = -4 := by
  refine ⟨expr_of_derives nd (derives_chain ty x1 rest hx1 hrest hops) fuel hfuel,
    fun g => ?_, rfl, rfl, by decide⟩
  have hops4 : ∀ p ∈ rest, p.1 = "+" ∨ p.1 = "-" ∨ p.1 = "*" ∨ p.1 = "/" := by
    intro p hp
    rcases hops with ⟨_, h⟩ | ⟨_, h⟩
    · rcases h p hp with h | h
      · exact Or.inl h
      · exact Or.inr (Or.inl h)
    · rcases h p hp with h | h
      · exact Or.inr (Or.inr (Or.inl h))
      · exact Or.inr (Or.inr (Or.inr h))
  exact eval_chain ty rest hops4 (.AstConst (decimalValue x1)) _ _ g rfl

/-- C3, applied to the chain `8/2*3`. -/
theorem C3_left_associative_witness :
    IsIntLiteral ['8'] ∧
    DiceParser.Expr ndSample 6
        (NewDiceParser [⟨.Const, "8"⟩, ⟨.Factor, "/"⟩, ⟨.Const, "2"⟩, ⟨.Factor, "*"⟩,
          ⟨.Const, "3"⟩])
      = .ok (.AstOp (.AstOp (.AstConst 8) (.AstConst 2) ⟨.Factor, "/"⟩) (.AstConst 3)
            ⟨.Factor, "*"⟩,
          ⟨[⟨.Const, "8"⟩, ⟨.Factor, "/"⟩, ⟨.Const, "2"⟩, ⟨.Factor, "*"⟩, ⟨.Const, "3"⟩],
            4, []⟩) ∧
    chainValue ['8'] [("/", ['2']), ("*", ['3'])] = 12 :=
  have h := C3_left_associative ndSample .Factor ['8'] [("/", ['2']), ("*", ['3'])]
    (by decide) (by decide) (Or.inr ⟨rfl, by decide⟩) 6 (by decide)
  ⟨by decide, h.1, by decide⟩

/-- C3 as stated fails on an operand that does not fit in an `int`: the chain
`9223372036854775808-1` parses with a recorded error and the largest `int` as its first
leaf. -/
theorem C3_counterexample :
    DiceParser.Expr ndSample 4
        (NewDiceParser [⟨.Const, "9223372036854775808"⟩, ⟨.Term, "-"⟩, ⟨.Const, "1"⟩])
      = .ok (.AstOp (.AstConst 9223372036854775807) (.AstConst 1) ⟨.Term, "-"⟩,
          ⟨[⟨.Const, "9223372036854775808"⟩, ⟨.Term, "-"⟩, ⟨.Const, "1"⟩], 2,
            ["Found a NUMBER token that was not purely numeric: '9223372036854775808'"]⟩) := by
  rfl

/-! ## The evaluator -/

theorem wrapInt_of_fits {x : Int} (h : fitsInt x) : wrapInt x = x := by
  obtain ⟨h1, h2⟩ := h
  simp only [minInt, maxInt] at h1 h2
  simp only [wrapInt]
  omega

theorem wrapInt_wrapInt_add (a b : Int) : wrapInt (wrapInt a + b) = wrapInt (a + b) := by
  simp only [wrapInt]
  omega

/-- C4. For every `AstOp` whose operator is one of `+ - * /`, whose children evaluate
(the right one to a non-zero value when the operator is `/`) and whose exact result
fits in an `int`, `Eval` evaluates the left child first (the right child starts from
the random source the left child leaves, and a fault of the left child is the fault of
the node), and returns the exact result with the trace
`leftTrace ++ " " ++ op ++ " " ++ rightTrace`; division truncates toward zero:
`-3 / 2 = -1`. -/
theorem C4_binary_op_eval (l r : AstExpr) (tok : Token) (g g1 g2 : Rand) (lv rv : Int)
    (lt rt : String)
    (hop : tok.Value = "+" ∨ tok.Value = "-" ∨ tok.Value = "*" ∨ tok.Value = "/")
    (hl : l.Eval g = .ok (lv, lt, g1)) (hr : r.Eval g1 = .ok (rv, rt, g2))
    (hdiv : tok.Value = "/" → rv ≠ 0) (hfit : fitsInt (exactOp tok.Value lv rv)) :
    (AstExpr.AstOp l r tok).Eval g
        = .ok (exactOp tok.Value lv rv, lt ++ " " ++ tok.Value ++ " " ++ rt, g2)
    ∧ (∀ f, l.Eval g = .error f → (AstExpr.AstOp l r tok).Eval g = .error f)
    ∧ exactOp "/" (-3) 2 = -1 := by
  refine ⟨?_, fun f hf => by simp only [AstExpr.Eval, hf], by decide⟩
  have hw := wrapInt_of_fits hfit
  rcases hop with h | h | h | h
  · simp only [h, exactOp, if_true] at hw
    simp [AstExpr.Eval, hl, hr, evalOp, h, exactOp, hw]
  · simp only [h, exactOp] at hw
    simp at hw
    simp [AstExpr.Eval, hl, hr, evalOp, h, exactOp, hw]
  · simp only [h, exactOp] at hw
    simp at hw
    simp [AstExpr.Eval, hl, hr, evalOp, h, exactOp, hw]
  · have hrv := hdiv h
    simp only [h, exactOp] at hw
    simp at hw
    simp [AstExpr.Eval, hl, hr, evalOp, h, exactOp, hw, hrv]

/-- C4, applied to `-3 / 2`. -/
theorem C4_binary_op_eval_witness :
    (AstExpr.AstOp (.AstConst (-3)) (.AstConst 2) ⟨.Factor, "/"⟩).Eval ⟨fun n => n, 0⟩
      = .ok (-1, "-3 / 2", ⟨fun n => n, 0⟩) :=
  (C4_binary_op_eval (.AstConst (-3)) (.AstConst 2) ⟨.Factor, "/"⟩ ⟨fun n => n, 0⟩
    ⟨fun n => n, 0⟩ ⟨fun n => n, 0⟩ (-3) 2 "-3" "2" (by decide) rfl rfl (by decide)
    (by decide)).1

theorem drawsOf_zero (g : Rand) (sides : Int) : drawsOf g 0 sides = [] := rfl

theorem drawsOf_succ (g : Rand) (k : Nat) (sides : Int) :
    drawsOf g (k + 1) sides
      = (((g.stream g.pos % sides.toNat : Nat) : Int) + 1)
          :: drawsOf { g with pos := g.pos + 1 } k sides := by
  simp only [drawsOf, List.range_succ_eq_map, List.map_cons, List.map_map, Nat.add_zero]
  congr 1
  apply List.map_congr_left
  intro i _
  simp only [Function.comp, Nat.succ_eq_add_one]
  rw [Nat.add_assoc, Nat.add_comm 1 i]

theorem drawsOf_length (g : Rand) (k : Nat) (sides : Int) : (drawsOf g k sides).length = k := by
  simp [drawsOf]

theorem drawsOf_bounds (g : Rand) (k : Nat) {sides : Int} (hs : 1 ≤ sides) :
    ∀ d ∈ drawsOf g k sides, 1 ≤ d ∧ d ≤ sides := by
  intro d hd
  simp only [drawsOf, List.mem_map, List.mem_range] at hd
  obtain ⟨i, _, rfl⟩ := hd
  have hpos : 0 < sides.toNat := by omega
  have hlt := Nat.mod_lt (g.stream (g.pos + i)) hpos
  omega

theorem joinDraws_cons (d : Int) (ds : List Int) :
    joinDraws (d :: ds)
      = (Itoa d).data ++ (if ds = [] then [] else ", ".data ++ joinDraws ds) := by
  cases ds with
  | nil => simp [joinDraws]
  | cons e es => simp [joinDraws]

/-- The roll loop with `k` iterations left appends the next `k` draws to the rolls and
their decimal forms, separated, to the builder. -/
theorem rollLoop_spec {sides : Int} (hs : 1 ≤ sides) (hsm : sides ≤ maxInt) (len : Nat) :
    ∀ (k : Nat) (sb : List Char) (rolls : List Int) (g : Rand), k ≤ len →
      rollLoop sides len k sb rolls g
        = .ok (sb ++ joinDraws (drawsOf g k sides), rolls ++ drawsOf g k sides,
            { g with pos := g.pos + k }) := by
  intro k
  induction k with
  | zero =>
    intro sb rolls g _
    simp [rollLoop, drawsOf_zero, joinDraws]
  | succ k ih =>
    intro sb rolls g hk
    have hpos : 0 < sides.toNat := by omega
    have hlt := Nat.mod_lt (g.stream g.pos) hpos
    have hfit : fitsInt (((g.stream g.pos % sides.toNat : Nat) : Int) + 1) := by
      simp only [fitsInt, minInt, maxInt] at hsm ⊢
      omega
    have hint : g.Intn sides
        = .ok (((g.stream g.pos % sides.toNat : Nat) : Int), { g with pos := g.pos + 1 }) := by
      have : ¬ sides ≤ 0 := by omega
      simp [Rand.Intn, this]
    have hlast : (((len - (k + 1) : Nat) : Int) ≠ (len : Int) - 1) ↔ k ≠ 0 := by
      omega
    rw [rollLoop]
    simp only [hint, wrapInt_of_fits hfit]
    rw [ih _ _ _ (by omega), drawsOf_succ, joinDraws_cons]
    have hnil : drawsOf { g with pos := g.pos + 1 } k sides = [] ↔ k = 0 := by
      rw [← List.length_eq_zero, drawsOf_length]
    by_cases hk0 : k = 0
    · subst hk0
      have h1 : ((len - (0 + 1) : Nat) : Int) = (len : Int) - 1 := by omega
      simp [drawsOf_zero, joinDraws, h1]
    · have h1 : ((len - (k + 1) : Nat) : Int) ≠ (len : Int) - 1 := hlast.mpr hk0
      have h2 : ¬ drawsOf { g with pos := g.pos + 1 } k sides = [] := fun h => hk0 (hnil.mp h)
      simp only [h1, h2, ne_eq, not_false_eq_true, if_true, if_false, List.append_assoc,
        List.singleton_append]
      simp [Nat.add_assoc, Nat.add_comm 1 k]

theorem sumRolls_foldl (rolls : List Int) (a : Int) :
    rolls.foldl (fun sum v => wrapInt (sum + v)) (wrapInt a) = wrapInt (a + rolls.sum) := by
  induction rolls generalizing a with
  | nil => simp
  | cons v vs ih =>
    simp only [List.foldl_cons, List.sum_cons, wrapInt_wrapInt_add]
    rw [ih (a + v), Int.add_assoc]

theorem sumRolls_eq (rolls : List Int) : sumRolls rolls = wrapInt rolls.sum := by
  have h := sumRolls_foldl rolls 0
  have h0 : wrapInt 0 = 0 := by decide
  rw [h0, Int.zero_add] at h
  exact h

theorem sum_bounds {sides : Int} (ds : List Int) (h : ∀ d ∈ ds, 1 ≤ d ∧ d ≤ sides) :
    0 ≤ ds.sum ∧ ds.sum ≤ ds.length * sides := by
  induction ds with
  | nil => simp
  | cons d ds ih =>
    have h1 := h d (List.mem_cons_self _ _)
    have h2 := ih (fun x hx => h x (List.mem_cons_of_mem _ hx))
    simp only [List.sum_cons, List.length_cons]
    push_cast
    constructor
    · omega
    · nlinarith [h1.1, h1.2, h2.1, h2.2]

/-- C6 as amended. For every count at least 0, every number of sides at least 1 and
every random source: when the count is at most 2^45, the largest `[]int` that `make`
accepts (`8 * count ≤ maxAlloc`), `AstDie{count, sides}.Eval` returns the trace `[`
followed by exactly `count` decimal draws separated by `, ` in roll order followed by
`]` (`[]` when the count is 0); every draw lies between 1 and `sides`; the returned
value is the sum of the draws wrapped into the 64-bit `int` range, which is the exact
sum whenever `count * sides` fits in an `int` (0 when the count is 0). When the count is
larger, `make([]int, count)` panics and `Eval` returns nothing. -/
theorem C6_dice_bounds (count sides : Int) (g : Rand) (hc : 0 ≤ count) (hs : 1 ≤ sides)
    (hsm : sides ≤ maxInt) :
    (8 * count ≤ maxAlloc →
      (AstExpr.AstDie count sides).Eval g
          = .ok (wrapInt (drawsOf g count.toNat sides).sum,
              renderDraws (drawsOf g count.toNat sides),
              { g with pos := g.pos + count.toNat })
      ∧ ((drawsOf g count.toNat sides).length : Int) = count
      ∧ (∀ d ∈ drawsOf g count.toNat sides, 1 ≤ d ∧ d ≤ sides)
      ∧ (count * sides ≤ maxInt →
          wrapInt (drawsOf g count.toNat sides).sum = (drawsOf g count.toNat sides).sum)
      ∧ (count = 0 → (AstExpr.AstDie count sides).Eval g = .ok (0, "[]", g)))
    ∧ (maxAlloc < 8 * count →
        (AstExpr.AstDie count sides).Eval g = .error .makesliceLenOutOfRange) := by
  refine ⟨fun hcap => ?_, fun hbig => ?_⟩
  · have hlen : ((drawsOf g count.toNat sides).length : Int) = count := by
      rw [drawsOf_length]
      omega
    have heval : (AstExpr.AstDie count sides).Eval g
        = .ok (wrapInt (drawsOf g count.toNat sides).sum,
            renderDraws (drawsOf g count.toNat sides),
            { g with pos := g.pos + count.toNat }) := by
      have hneg : ¬ (count < 0 ∨ maxAlloc < 8 * count) := by omega
      simp only [AstExpr.Eval, hneg, if_false,
        rollLoop_spec hs hsm count.toNat count.toNat ['['] [] g (Nat.le_refl _),
        sumRolls_eq, List.nil_append, renderDraws]
    refine ⟨heval, hlen, drawsOf_bounds g _ hs, ?_, ?_⟩
    · intro hprod
      have hb := sum_bounds _ (drawsOf_bounds g count.toNat hs)
      rw [hlen] at hb
      apply wrapInt_of_fits
      simp only [fitsInt, minInt, maxInt] at hprod ⊢
      omega
    · intro h0
      subst h0
      rw [heval]
      rfl
  · have hpos : count < 0 ∨ maxAlloc < 8 * count := Or.inr hbig
    simp only [AstExpr.Eval, hpos, if_true]

/-- C6, applied to `3d6` on the source 0, 1, 2, ... -/
theorem C6_dice_bounds_witness :
    (AstExpr.AstDie 3 6).Eval ⟨fun n => n, 0⟩ = .ok (6, "[1, 2, 3]", ⟨fun n => n, 3⟩) :=
  ((C6_dice_bounds 3 6 ⟨fun n => n, 0⟩ (by decide) (by decide) (by decide)).1
    (by decide)).1

/-- C6 as stated fails in two ways. When the sum of the draws leaves the `int` range:
two dice with `2^63 - 1` sides that both roll their maximum are traced as such, and the
returned value is -2, not their sum. When the count is more than `make` accepts: the
input `9223372036854775807d1` lexes and parses with an empty error list into a dice node
with a count of `2^63 - 1` and one side, and so does `1125899906842624d1` with a count
of `2^50`; on both `make([]int, count)` panics and `Eval` returns no trace and no
value. -/
theorem C6_counterexample :
    ((AstExpr.AstDie 2 9223372036854775807).Eval ⟨fun _ => 9223372036854775806, 0⟩
        = .ok (-2, "[9223372036854775807, 9223372036854775807]",
            ⟨fun _ => 9223372036854775806, 2⟩)
      ∧ drawsOf ⟨fun _ => 9223372036854775806, 0⟩ 2 9223372036854775807
        = [9223372036854775807, 9223372036854775807]
      ∧ ([9223372036854775807, 9223372036854775807] : List Int).sum ≠ -2)
    ∧ (tokenizeExpr ndSample "9223372036854775807d1"
        = .ok ([⟨.Die, "9223372036854775807d1"⟩], none)
      ∧ DiceParser.Expr ndSample 2 (NewDiceParser [⟨.Die, "9223372036854775807d1"⟩])
        = .ok (.AstDie 9223372036854775807 1, ⟨[⟨.Die, "9223372036854775807d1"⟩], 0, []⟩)
      ∧ (AstExpr.AstDie 9223372036854775807 1).Eval ⟨fun n => n, 0⟩
        = .error .makesliceLenOutOfRange
      ∧ tokenizeExpr ndSample "1125899906842624d1"
        = .ok ([⟨.Die, "1125899906842624d1"⟩], none)
      ∧ DiceParser.Expr ndSample 2 (NewDiceParser [⟨.Die, "1125899906842624d1"⟩])
        = .ok (.AstDie 1125899906842624 1, ⟨[⟨.Die, "1125899906842624d1"⟩], 0, []⟩)
      ∧ (AstExpr.AstDie 1125899906842624 1).Eval ⟨fun n => n, 0⟩
        = .error .makesliceLenOutOfRange) :=
  ⟨⟨by rfl, by rfl, by decide⟩, by rfl, by rfl, by rfl, by rfl, by rfl, by rfl⟩

/-! ## The lexer against its contract -/

theorem tokenizeLoop_filter (nd : Char → Bool) (cs : List Char) (tokens : List Token)
    (sb : List Char) :
    tokenizeLoop nd cs tokens sb
      = tokenizeLoop nd (cs.filter (fun c => !isWhitespace c)) tokens sb := by
  induction cs generalizing tokens sb with
  | nil => rfl
  | cons c cs ih =>
    by_cases hw : isWhitespace c = true
    · rw [tokenizeLoop]
      simp only [hw, if_true, List.filter_cons, Bool.not_true, Bool.false_eq_true, if_false]
      exact ih tokens sb
    · have hw2 : isWhitespace c = false := by simpa using hw
      have hf : (c :: cs).filter (fun c => !isWhitespace c)
          = c :: cs.filter (fun c => !isWhitespace c) := by
        simp [List.filter_cons, hw2]
      rw [hf, tokenizeLoop, tokenizeLoop]
      simp only [hw2, Bool.false_eq_true, if_false]
      by_cases ht : isTransition c = true
      · simp only [ht, if_true]
        split
        · rfl
        · split
          · rfl
          · exact ih _ _
      · simp only [ht, if_false]
        exact ih _ _

theorem transitionType_of_isTransition (nd : Char → Bool) {c : Char}
    (h : isTransition c = true) :
    transitionType c = some (pieceToken nd (.transition c)).Typ := by
  simp only [isTransition, Bool.or_eq_true, decide_eq_true_eq] at h
  rcases h with ((((rfl | rfl) | rfl) | rfl) | rfl) | rfl <;> rfl

theorem attach_nil (ps : List Piece) : attach [] ps = ps := by
  rcases ps with _ | ⟨p, ps⟩
  · rfl
  · cases p <;> rfl

theorem attach_snoc (sb : List Char) (c : Char) (ps : List Piece) :
    attach (sb ++ [c]) ps
      = attach sb (match ps with
          | .buffer b :: ps => .buffer (c :: b) :: ps
          | ps => .buffer [c] :: ps) := by
  cases sb with
  | nil =>
    rcases ps with _ | ⟨p, ps⟩
    · rfl
    · cases p <;> rfl
  | cons s sb =>
    rcases ps with _ | ⟨p, ps⟩
    · rfl
    · cases p <;> simp [attach]

/-- The character loop on whitespace-free text is the piece-wise lexer on its pieces. -/
theorem tokenizeLoop_pieces (nd : Char → Bool) (cs : List Char)
    (hcs : ∀ c ∈ cs, isWhitespace c = false) (tokens : List Token) (sb : List Char) :
    tokenizeLoop nd cs tokens sb = .ok (lexPieces nd (attach sb (pieces cs)) tokens) := by
  induction cs generalizing tokens sb with
  | nil =>
    cases sb with
    | nil => rfl
    | cons s sb =>
      simp only [tokenizeLoop, pieces, attach, lexPieces, List.length_cons, ne_eq,
        Nat.add_one_ne_zero, not_false_eq_true, if_true]
      split <;> simp_all
  | cons c cs ih =>
    have hw := hcs c (List.mem_cons_self _ _)
    have ih2 := ih (fun x hx => hcs x (List.mem_cons_of_mem _ hx))
    rw [tokenizeLoop]
    simp only [hw, Bool.false_eq_true, if_false]
    by_cases ht : isTransition c = true
    · have hty := transitionType_of_isTransition nd ht
      simp only [ht, if_true, pieces, hty]
      cases sb with
      | nil =>
        simp only [List.length_nil, ne_eq, not_true_eq_false, if_false, attach, lexPieces]
        rw [ih2, attach_nil]
        rfl
      | cons s sb =>
        simp only [List.length_cons, ne_eq, Nat.add_one_ne_zero, not_false_eq_true, if_true,
          attach, lexPieces]
        rcases hlex : LexToken nd (String.mk (s :: sb)) with ⟨t, _ | err⟩
        · simp only []
          rw [ih2, attach_nil]
          rfl
        · rfl
    · have ht2 : isTransition c = false := by simpa using ht
      simp only [ht2, Bool.false_eq_true, if_false, pieces]
      rw [ih2, attach_snoc]

theorem dieExprMatch_iff (b : List Char) : dieExprMatch (String.mk b) = true ↔ DieForm b := by
  constructor
  · intro h
    simp only [dieExprMatch] at h
    have hsplit := List.takeWhile_append_dropWhile asciiDigit b
    rcases hdrop : b.dropWhile asciiDigit with _ | ⟨x, ds⟩
    · simp [hdrop] at h
    · rw [hdrop] at h hsplit
      by_cases hx : x = 'd'
      · subst hx
        simp only [Bool.and_eq_true, Bool.not_eq_true', List.isEmpty_eq_false,
          List.all_eq_true] at h
        refine ⟨b.takeWhile asciiDigit, ds, hsplit.symm, ?_, ?_, h.2⟩
        · intro c hc
          exact (List.mem_takeWhile_imp hc)
        · intro hnil
          simp [hnil] at h
      · exfalso
        revert h
        split
        · rename_i heq
          simp only [List.cons.injEq] at heq
          exact absurd heq.1 hx
        · simp
  · rintro ⟨n, m, rfl, hn, hm, hmd⟩
    exact dieExprMatch_form (List.all_eq_true.mpr hn) hm (List.all_eq_true.mpr hmd)

theorem isInt_iff (nd : Char → Bool) (b : List Char) :
    isInt nd (String.mk b) = true ↔ DigitOnly nd b := by
  simp [isInt, DigitOnly]

/-- On a buffer that is not offending `LexToken` returns the token of the
specification. -/
theorem LexToken_ok (nd : Char → Bool) (b : List Char) (h : ¬ Offending nd b) :
    LexToken nd (String.mk b) = (pieceToken nd (.buffer b), none) := by
  by_cases hd : DigitOnly nd b
  · simp [LexToken, (isInt_iff nd b).mpr hd, pieceToken, hd]
  · have hf : DieForm b := by
      by_contra hf
      exact h ⟨hd, hf⟩
    have hi : isInt nd (String.mk b) = false := by
      rw [← Bool.not_eq_true, isInt_iff]
      exact hd
    simp only [LexToken, hi, (dieExprMatch_iff b).mpr hf, pieceToken, hd, Bool.false_eq_true,
      if_false, if_true]
    by_cases hh : b.head? = some 'd'
    · simp only [hh, if_true]
      rfl
    · simp only [hh, if_false]

/-- On an offending buffer `LexToken` returns the error that quotes the buffer. -/
theorem LexToken_err (nd : Char → Bool) (b : List Char) (h : Offending nd b) :
    LexToken nd (String.mk b) = (Token.zero, some (lexError (String.mk b))) := by
  have hi : isInt nd (String.mk b) = false := by
    rw [← Bool.not_eq_true, isInt_iff]
    exact h.1
  have hm : dieExprMatch (String.mk b) = false := by
    rw [← Bool.not_eq_true, dieExprMatch_iff]
    exact h.2
  simp [LexToken, hi, hm]

theorem lexPieces_ok (nd : Char → Bool) (ps : List Piece)
    (h : ∀ b, Piece.buffer b ∈ ps → ¬ Offending nd b) (tokens : List Token) :
    lexPieces nd ps tokens = (tokens ++ ps.map (pieceToken nd), none) := by
  induction ps generalizing tokens with
  | nil => simp [lexPieces]
  | cons p ps ih =>
    have ih2 := ih (fun b hb => h b (List.mem_cons_of_mem _ hb))
    cases p with
    | buffer b =>
      simp only [lexPieces, LexToken_ok nd b (h b (List.mem_cons_self _ _)), ih2,
        List.map_cons, List.append_assoc, List.singleton_append]
    | transition c =>
      simp only [lexPieces, ih2, List.map_cons, List.append_assoc, List.singleton_append]

theorem lexPieces_err (nd : Char → Bool) (ps1 : List Piece) (b : List Char)
    (ps2 : List Piece) (h1 : ∀ b', Piece.buffer b' ∈ ps1 → ¬ Offending nd b')
    (hb : Offending nd b) (tokens : List Token) :
    lexPieces nd (ps1 ++ .buffer b :: ps2) tokens = ([], some (lexError (String.mk b))) := by
  induction ps1 generalizing tokens with
  | nil => simp only [List.nil_append, lexPieces, LexToken_err nd b hb]
  | cons p ps ih =>
    have ih2 := ih (fun b hb => h1 b (List.mem_cons_of_mem _ hb))
    cases p with
    | buffer b0 =>
      rw [List.cons_append, lexPieces]
      simp only [LexToken_ok nd b0 (h1 b0 (List.mem_cons_self _ _))]
      exact ih2 _
    | transition c =>
      rw [List.cons_append, lexPieces]
      exact ih2 _

/-- Either no buffer is offending or there is a first offending one. -/
theorem first_offending (nd : Char → Bool) (ps : List Piece) :
    (∀ b, Piece.buffer b ∈ ps → ¬ Offending nd b) ∨
    ∃ ps1 b ps2, ps = ps1 ++ .buffer b :: ps2 ∧ Offending nd b ∧
      ∀ b', Piece.buffer b' ∈ ps1 → ¬ Offending nd b' := by
  induction ps with
  | nil => exact Or.inl (fun b hb => by simp at hb)
  | cons p ps ih =>
    have hhead : (∃ b, p = .buffer b ∧ Offending nd b) ∨
        ∀ b, p = .buffer b → ¬ Offending nd b := by
      by_cases hp : ∃ b, p = .buffer b ∧ Offending nd b
      · exact Or.inl hp
      · exact Or.inr (fun b hb ho => hp ⟨b, hb, ho⟩)
    rcases hhead with ⟨b, rfl, ho⟩ | hp
    · exact Or.inr ⟨[], b, ps, rfl, ho, fun b' hb' => by simp at hb'⟩
    · rcases ih with hall | ⟨ps1, b, ps2, rfl, ho, h1⟩
      · refine Or.inl (fun b hb => ?_)
        rcases List.mem_cons.mp hb with heq | hmem
        · exact hp b heq.symm
        · exact hall b hmem
      · refine Or.inr ⟨p :: ps1, b, ps2, rfl, ho, fun b' hb' => ?_⟩
        rcases List.mem_cons.mp hb' with heq | hmem
        · exact hp b' heq.symm
        · exact h1 b' hmem

/-- The buffers of the pieces are non-empty and free of transition characters. -/
theorem pieces_buffer (cs : List Char) :
    ∀ b, Piece.buffer b ∈ pieces cs → b ≠ [] ∧ ∀ c ∈ b, isTransition c = false := by
  induction cs with
  | nil => intro b hb; simp [pieces] at hb
  | cons c cs ih =>
    intro b hb
    by_cases ht : isTransition c = true
    · simp only [pieces, ht, if_true, List.mem_cons] at hb
      rcases hb with hb | hb
      · cases hb
      · exact ih b hb
    · have ht2 : isTransition c = false := by simpa using ht
      simp only [pieces, ht2, Bool.false_eq_true, if_false] at hb
      rcases hps : pieces cs with _ | ⟨p, ps⟩
      · rw [hps] at hb
        simp only [List.mem_singleton, Piece.buffer.injEq] at hb
        subst hb
        exact ⟨by simp, by simpa using ht2⟩
      · rw [hps] at hb ih
        cases p with
        | buffer b0 =>
          simp only [List.mem_cons, Piece.buffer.injEq] at hb
          rcases hb with hb | hb
          · subst hb
            have := (ih b0 (List.mem_cons_self _ _)).2
            refine ⟨by simp, fun x hx => ?_⟩
            rcases List.mem_cons.mp hx with rfl | hx
            · exact ht2
            · exact this x hx
          · exact ih b (List.mem_cons_of_mem _ hb)
        | transition c0 =>
          simp only [List.mem_cons, Piece.buffer.injEq] at hb
          rcases hb with hb | hb | hb
          · subst hb
            exact ⟨by simp, by simpa using ht2⟩
          · cases hb
          · exact ih b (List.mem_cons_of_mem _ hb)

/-- The lexer is the piece-wise lexer on the pieces of its input; it never faults. -/
theorem tokenizeExpr_pieces (nd : Char → Bool) (raw : String) :
    tokenizeExpr nd raw = .ok (lexPieces nd (piecesOf raw) []) := by
  rw [tokenizeExpr, tokenizeLoop_filter, tokenizeLoop_pieces, attach_nil]
  · rfl
  · intro c hc
    simpa using (List.mem_filter.mp hc).2

theorem digitOnly_latin1 (nd : Char → Bool) (b : List Char) (h : ∀ c ∈ b, c.val ≤ 0xFF) :
    DigitOnly nd b ↔ ∀ c ∈ b, asciiDigit c = true := by
  constructor
  · intro hd c hc
    have := hd c hc
    simpa only [unicodeIsDigit, h c hc, if_true] using this
  · intro ha c hc
    exact asciiDigit_unicode nd (ha c hc)

/-- C9. `tokenizeExpr` returns an error if and only if some buffer (a maximal non-empty
run of characters accumulated between transition characters or the end of the input)
is neither digit-only nor of the form optional digits, `d`, digits. In that case the
returned token list is empty and the message quotes the first such buffer verbatim;
otherwise one token is returned per buffer and per transition character, in input
order. Digit-only is meant as `unicode.IsDigit` has it, which on Latin-1 text is the
ASCII digits; the digits of the dice form are ASCII digits. -/
theorem C9_lex_error_iff_offending (nd : Char → Bool) (raw : String) :
    ((∃ toks err, tokenizeExpr nd raw = .ok (toks, some err))
        ↔ ∃ b, Piece.buffer b ∈ piecesOf raw ∧ Offending nd b)
    ∧ (∀ toks err, tokenizeExpr nd raw = .ok (toks, some err) →
        toks = [] ∧ ∃ ps1 b ps2, piecesOf raw = ps1 ++ .buffer b :: ps2 ∧ Offending nd b ∧
          (∀ b', Piece.buffer b' ∈ ps1 → ¬ Offending nd b') ∧
          err = "\"" ++ String.mk b
            ++ "\" was not recognized as a valid number or dice expression.")
    ∧ ((¬ ∃ b, Piece.buffer b ∈ piecesOf raw ∧ Offending nd b) →
        tokenizeExpr nd raw = .ok ((piecesOf raw).map (pieceToken nd), none))
    ∧ (∀ b, Piece.buffer b ∈ piecesOf raw → b ≠ [] ∧ ∀ c ∈ b, isTransition c = false)
    ∧ (∀ b : List Char, (∀ c ∈ b, c.val ≤ 0xFF) →
        (DigitOnly nd b ↔ ∀ c ∈ b, asciiDigit c = true)) := by
  have hlex := tokenizeExpr_pieces nd raw
  refine ⟨?_, ?_, ?_, pieces_buffer _, digitOnly_latin1 nd⟩
  · constructor
    · rintro ⟨toks, err, h⟩
      rcases first_offending nd (piecesOf raw) with hall | ⟨ps1, b, ps2, hps, ho, _⟩
      · rw [hlex, lexPieces_ok nd _ hall] at h
        simp at h
      · exact ⟨b, by rw [hps]; simp, ho⟩
    · rintro ⟨b, hb, ho⟩
      rcases first_offending nd (piecesOf raw) with hall | ⟨ps1, b1, ps2, hps, ho1, h1⟩
      · exact absurd ho (hall b hb)
      · exact ⟨[], lexError (String.mk b1), by rw [hlex, hps, lexPieces_err nd _ _ _ h1 ho1]⟩
  · intro toks err h
    rcases first_offending nd (piecesOf raw) with hall | ⟨ps1, b, ps2, hps, ho, h1⟩
    · rw [hlex, lexPieces_ok nd _ hall] at h
      simp at h
    · have h2 := h
      rw [hlex, hps, lexPieces_err nd _ _ _ h1 ho] at h2
      simp only [Except.ok.injEq, Prod.mk.injEq, Option.some.injEq] at h2
      exact ⟨h2.1.symm, ps1, b, ps2, hps, ho, h1, h2.2.symm⟩
  · intro hnone
    rw [hlex, lexPieces_ok nd _ (fun b hb ho => hnone ⟨b, hb, ho⟩)]
    rfl

/-- The shape of every `Die` token the lexer emits: a non-empty count, `d`, a non-empty
number of sides, all ASCII digits. -/
theorem die_token_shape (nd : Char → Bool) (raw : String) (toks : List Token) (t : Token)
    (h : tokenizeExpr nd raw = .ok (toks, none)) (ht : t ∈ toks) (hty : t.Typ = .Die) :
    ∃ k s, k ≠ [] ∧ (∀ c ∈ k, asciiDigit c = true) ∧ s ≠ [] ∧
      (∀ c ∈ s, asciiDigit c = true) ∧ t.Value = String.mk (k ++ 'd' :: s) := by
  rw [tokenizeExpr_pieces] at h
  rcases first_offending nd (piecesOf raw) with hall | ⟨ps1, b, ps2, hps, ho, h1⟩
  · rw [lexPieces_ok nd _ hall] at h
    simp only [Except.ok.injEq, Prod.mk.injEq, List.nil_append, and_true] at h
    subst h
    obtain ⟨p, hp, rfl⟩ := List.mem_map.mp ht
    cases p with
    | transition c =>
      exfalso
      revert hty
      simp only [pieceToken]
      split
      · simp
      · split <;> simp
    | buffer b =>
      by_cases hd : DigitOnly nd b
      · simp [pieceToken, hd] at hty
      · have hf : DieForm b := by
          by_contra hf
          exact hall b hp ⟨hd, hf⟩
        obtain ⟨n, m, rfl, hn, hm, hmd⟩ := hf
        have hhead := head?_form m (List.all_eq_true.mpr hn)
        simp only [pieceToken, hd, if_false]
        by_cases hn0 : n = []
        · subst hn0
          exact ⟨['1'], m, by simp, by decide, hm, hmd, by simp⟩
        · have hh : ¬ (n ++ 'd' :: m).head? = some 'd' := fun hc => hn0 (hhead.mp hc)
          exact ⟨n, m, hn0, hn, hm, hmd, by simp only [hh, if_false]⟩
  · rw [hps, lexPieces_err nd _ _ _ h1 ho] at h
    simp at h

/-- C8. For every string of the form digits, `d`, digits with a non-empty digit run after
the `d`, `tokenizeExpr` returns exactly one token, of type `Die`; its value is the input
unchanged when digits precede the `d` and the input with `1` prepended when none do.
Every `Die` token the lexer emits, on any input, has a non-empty count part. -/
theorem C8_die_one_die_token (nd : Char → Bool) (n m : List Char)
    (hn : ∀ c ∈ n, asciiDigit c = true) (hm : m ≠ [])
    (hmd : ∀ c ∈ m, asciiDigit c = true) :
    tokenizeExpr nd (String.mk (n ++ 'd' :: m))
        = .ok ([⟨.Die, String.mk ((if n = [] then ['1'] else n) ++ 'd' :: m)⟩], none)
    ∧ ∀ (raw : String) (toks : List Token) (t : Token),
        tokenizeExpr nd raw = .ok (toks, none) → t ∈ toks → t.Typ = .Die →
        ∃ k s, k ≠ [] ∧ (∀ c ∈ k, asciiDigit c = true) ∧ s ≠ [] ∧
          (∀ c ∈ s, asciiDigit c = true) ∧ t.Value = String.mk (k ++ 'd' :: s) := by
  refine ⟨?_, fun raw toks t h ht hty => die_token_shape nd raw toks t h ht hty⟩
  have hn2 : n.all asciiDigit = true := List.all_eq_true.mpr hn
  have hm2 : m.all asciiDigit = true := List.all_eq_true.mpr hmd
  have hplain : ∀ c ∈ n ++ 'd' :: m, isWhitespace c = false ∧ isTransition c = false := by
    intro c hc
    rcases List.mem_append.mp hc with h | h
    · exact all_asciiDigit_plain hn2 c h
    · rcases List.mem_cons.mp h with rfl | h
      · exact ⟨rfl, rfl⟩
      · exact all_asciiDigit_plain hm2 c h
  have h1 := tokenizeLoop_plain nd (n ++ 'd' :: m) [] [] [] hplain
  simp only [List.append_nil, List.nil_append] at h1
  rw [tokenizeExpr, h1]
  simp [tokenizeLoop, LexToken_form nd hn2 hm hm2]

/-- C8, applied to `d6`, which is normalised to `1d6`. -/
theorem C8_die_one_die_token_witness :
    (∀ c ∈ ([] : List Char), asciiDigit c = true) ∧ ['6'] ≠ [] ∧
      (∀ c ∈ ['6'], asciiDigit c = true) ∧
      tokenizeExpr ndSample "d6" = .ok ([⟨.Die, "1d6"⟩], none) :=
  ⟨by decide, by decide, by decide,
    (C8_die_one_die_token ndSample [] ['6'] (by decide) (by decide) (by decide)).1⟩

/-! ## The command handler -/

/-- C10, the code at the failing input. On `(1+2` the parser returns the `nil` tree with
one recorded error; the handler sends the error list and then calls `Eval` on that
tree all the same, which faults. On `99999999999999999999` the parser records an error
too, and the handler sends the error list followed by the result embed. -/
theorem C10_eval_runs_after_parse_errors (nd : Char → Bool) (username discriminator : String)
    (g : Rand) :
    (tokenizeExpr nd "(1+2"
        = .ok ([⟨.Group, "("⟩, ⟨.Const, "1"⟩, ⟨.Term, "+"⟩, ⟨.Const, "2"⟩], none)
      ∧ DiceParser.Expr nd 8
          (NewDiceParser [⟨.Group, "("⟩, ⟨.Const, "1"⟩, ⟨.Term, "+"⟩, ⟨.Const, "2"⟩])
        = .ok (.nil, ⟨[⟨.Group, "("⟩, ⟨.Const, "1"⟩, ⟨.Term, "+"⟩, ⟨.Const, "2"⟩], 3,
            ["Unmatched parenthesis."]⟩)
      ∧ AstExpr.nil.Eval g = .error .nilDereference
      ∧ RollHandler nd 8 username discriminator ["(1+2"] g
        = ([.message "Errs: [Unmatched parenthesis.]\n"], some .nilDereference)
      ∧ RollHandler nd 8 username discriminator ["roll", "(1+2"] g
        = ([.message "Errs: [Unmatched parenthesis.]\n"], some .nilDereference))
    ∧ RollHandler nd 8 username discriminator ["99999999999999999999"] g
      = ([.message ("Errs: [Found a NUMBER token that was not purely numeric: "
            ++ "'99999999999999999999']\n"),
          .embed "99999999999999999999" "9223372036854775807" "9223372036854775807"
            (username ++ "#" ++ discriminator ++ " Rolled " ++ "9223372036854775807")],
          none) :=
  ⟨⟨rfl, rfl, rfl, rfl, rfl⟩, rfl⟩

/-! ## Tokens left over, unmatched parentheses -/

/-- A sentence followed by a token that is not an operator: the parser returns the tree
of the sentence and stops in front of that token. -/
theorem expr_of_derives_leftover (nd : Char → Bool) {ts : List Token} {a : AstExpr}
    (h : Derives .Expr ts a) (t : Token) (rest : List Token) (ht1 : t.Typ ≠ .Term)
    (ht2 : t.Typ ≠ .Factor) (fuel : Nat) (hfuel : ts.length < fuel) :
    DiceParser.Expr nd fuel (NewDiceParser (ts ++ t :: rest))
      = .ok (a, ⟨ts ++ t :: rest, ts.length, []⟩) := by
  have hstop : StopAt (fun ty => ty = .Term ∨ ty = .Factor) (ts ++ t :: rest)
      (([] : List Token).length + ts.length) := by
    rw [List.length_nil, Nat.zero_add]
    exact stopAt_mid rfl (fun hc => hc.elim ht1 ht2)
  have := derives_good nd h fuel [] (t :: rest) [] (ts ++ t :: rest) (by simp) hfuel hstop
  simpa [cursorAt, NewDiceParser] using this

/-- C11 as amended. `Expr` does not check that the input is used up: for every token
sequence that is a sentence of the grammar followed by leftover tokens the first of
which is not an operator, it returns the tree of the sentence with an empty error list
and leaves the cursor on the first leftover token. -/
theorem C11_leftover_tokens_ignored (nd : Char → Bool) {ts : List Token} {a : AstExpr}
    (h : Derives .Expr ts a) (t : Token) (rest : List Token) (ht1 : t.Typ ≠ .Term)
    (ht2 : t.Typ ≠ .Factor) (fuel : Nat) (hfuel : ts.length < fuel) :
    DiceParser.Expr nd fuel (NewDiceParser (ts ++ t :: rest))
      = .ok (a, ⟨ts ++ t :: rest, ts.length, []⟩) :=
  expr_of_derives_leftover nd h t rest ht1 ht2 fuel hfuel

/-- C11, applied to the tokens of `2(3)`: the sentence `2` and three leftover tokens. -/
theorem C11_leftover_tokens_ignored_witness :
    Derives .Expr [⟨.Const, "2"⟩] (.AstConst 2) ∧
    DiceParser.Expr ndSample 2
        (NewDiceParser [⟨.Const, "2"⟩, ⟨.Group, "("⟩, ⟨.Const, "3"⟩, ⟨.Group, ")"⟩])
      = .ok (.AstConst 2,
          ⟨[⟨.Const, "2"⟩, ⟨.Group, "("⟩, ⟨.Const, "3"⟩, ⟨.Group, ")"⟩], 1, []⟩) :=
  have two : Derives .Expr [⟨.Const, "2"⟩] (.AstConst 2) :=
    Derives.expr (Derives.term (Derives.factor
      (@Derives.number ['2'] (by decide) (by decide) (by decide)) Derives.factorNil)
      Derives.termNil)
  ⟨two, C11_leftover_tokens_ignored ndSample two ⟨.Group, "("⟩
    [⟨.Const, "3"⟩, ⟨.Group, ")"⟩] (by decide) (by decide) 2 (by decide)⟩

/-- A token sequence on which the parser does not end on the last token is not a
sentence. -/
theorem not_derives_of_cursor (nd : Char → Bool) {ts : List Token} (fuel : Nat)
    (hfuel : ts.length < fuel) {a : AstExpr} {p : DiceParser}
    (hrun : DiceParser.Expr nd fuel (NewDiceParser ts) = .ok (a, p))
    (hcur : p.current ≠ ts.length - 1) : ¬ ∃ b, Derives .Expr ts b := by
  rintro ⟨b, hb⟩
  have := expr_of_derives nd hb fuel hfuel
  rw [hrun] at this
  simp only [Except.ok.injEq, Prod.mk.injEq] at this
  exact hcur (by rw [this.2])

/-- Every sentence has as many opening as closing parentheses. -/
theorem derives_balanced {r : Rule} {ts : List Token} {a : AstExpr} (h : Derives r ts a) :
    ts.count ⟨.Group, "("⟩ = ts.count ⟨.Group, ")"⟩ := by
  induction h with
  | expr _ ih => exact ih
  | term _ _ ihf ihr => simp only [List.count_append, ihf, ihr]
  | termNil => rfl
  | termCons _ _ _ ihf ihr =>
    simp only [List.count_append, List.count_cons, ihf, ihr]
    simp
  | factor _ _ ihp ihr => simp only [List.count_append, ihp, ihr]
  | factorNil => rfl
  | factorCons _ _ _ ihp ihr =>
    simp only [List.count_append, List.count_cons, ihp, ihr]
    simp
  | number _ _ _ => simp [List.count_cons]
  | dice _ _ _ _ _ _ => simp [List.count_cons]
  | group _ ih =>
    simp only [List.count_append, List.count_cons, ih]
    simp

/-- C11 as stated fails: the tokens of `2(3)` and of `1)` are not sentences of the
grammar, yet `Expr` returns on them with an empty error list, the cursor resting on the
first leftover token. -/
theorem C11_counterexample :
    (tokenizeExpr ndSample "2(3)"
        = .ok ([⟨.Const, "2"⟩, ⟨.Group, "("⟩, ⟨.Const, "3"⟩, ⟨.Group, ")"⟩], none)
      ∧ DiceParser.Expr ndSample 5
          (NewDiceParser [⟨.Const, "2"⟩, ⟨.Group, "("⟩, ⟨.Const, "3"⟩, ⟨.Group, ")"⟩])
        = .ok (.AstConst 2,
            ⟨[⟨.Const, "2"⟩, ⟨.Group, "("⟩, ⟨.Const, "3"⟩, ⟨.Group, ")"⟩], 1, []⟩)
      ∧ ¬ ∃ b, Derives .Expr
          [⟨.Const, "2"⟩, ⟨.Group, "("⟩, ⟨.Const, "3"⟩, ⟨.Group, ")"⟩] b)
    ∧ (tokenizeExpr ndSample "1)" = .ok ([⟨.Const, "1"⟩, ⟨.Group, ")"⟩], none)
      ∧ DiceParser.Expr ndSample 3 (NewDiceParser [⟨.Const, "1"⟩, ⟨.Group, ")"⟩])
        = .ok (.AstConst 1, ⟨[⟨.Const, "1"⟩, ⟨.Group, ")"⟩], 1, []⟩)
      ∧ ¬ ∃ b, Derives .Expr [⟨.Const, "1"⟩, ⟨.Group, ")"⟩] b) := by
  refine ⟨⟨by rfl, by rfl, ?_⟩, ⟨by rfl, by rfl, ?_⟩⟩
  · exact not_derives_of_cursor ndSample 5 (by decide)
      (show DiceParser.Expr ndSample 5 (NewDiceParser _) = .ok (.AstConst 2,
        ⟨[⟨.Const, "2"⟩, ⟨.Group, "("⟩, ⟨.Const, "3"⟩, ⟨.Group, ")"⟩], 1, []⟩) from rfl)
      (by decide)
  · rintro ⟨b, hb⟩
    exact absurd (derives_balanced hb) (by decide)

/-- An opened group whose inner tokens are a sentence and after which the cursor
stands on a token that is neither an operator nor a closing parenthesis: `Primary`
records the unmatched parenthesis and returns `nil`. -/
theorem primary_unmatched (nd : Char → Bool) {ts : List Token} {a : AstExpr}
    (h : Derives .Expr ts a) (pre post : List Token) (es : List String) (toks : List Token)
    (htoks : toks = pre ++ ⟨.Group, "("⟩ :: ts ++ post) (u : Token)
    (hu : toks[cursorAt toks (pre.length + 1 + ts.length)]? = some u)
    (h1 : u.Typ ≠ .Term) (h2 : u.Typ ≠ .Factor) (h3 : ¬ (u.Typ = .Group ∧ u.Value = ")"))
    (fuel : Nat) (hfuel : ts.length + 1 < fuel) :
    DiceParser.Primary nd fuel ⟨toks, pre.length, es⟩
      = .ok (.nil, ⟨toks, cursorAt toks (pre.length + 1 + ts.length),
          es ++ ["Unmatched parenthesis."]⟩) := by
  obtain ⟨k, rfl⟩ : ∃ k, fuel = k + 1 := ⟨fuel - 1, by omega⟩
  have e1 : toks = pre ++ (⟨.Group, "("⟩ : Token) :: (ts ++ post) := by simp [htoks]
  have e2 : toks = (pre ++ [⟨.Group, "("⟩]) ++ ts ++ post := by simp [htoks]
  have hlen : (pre ++ [(⟨.Group, "("⟩ : Token)]).length = pre.length + 1 := by simp
  have hstop : StopAt (fun ty => ty = .Term ∨ ty = .Factor) toks
      ((pre ++ [(⟨.Group, "("⟩ : Token)]).length + ts.length) := by
    rw [hlen]
    exact ⟨u, hu, fun hc => hc.elim h1 h2⟩
  have hinner := derives_good nd h k (pre ++ [⟨.Group, "("⟩]) post es toks e2 (by omega) hstop
  rw [hlen] at hinner
  have hinner2 : DiceParser.Term (DiceParser.Primary nd k) k
      ⟨toks, cursorAt toks (pre.length + 1), es⟩
      = .ok (a, ⟨toks, cursorAt toks (pre.length + 1 + ts.length), es⟩) := hinner
  have hcur : cursorAt toks pre.length = pre.length := by
    rw [e1]
    exact cursorAt_mid _ _ _
  have hcheck0 := fun ty : TokenType => check_at es ty e1
  have hpeek0 := peek_at es e1
  have hcons0 := consume_at es e1
  rw [hcur] at hcheck0 hpeek0 hcons0
  have hpeek : DiceParser.peek ⟨toks, cursorAt toks (pre.length + 1 + ts.length), es⟩
      = .ok u := by
    simp only [DiceParser.peek, hu]
  have hcheck : ∀ ty : TokenType,
      DiceParser.check ⟨toks, cursorAt toks (pre.length + 1 + ts.length), es⟩ ty
        = .ok (decide (u.Typ = ty)) := by
    intro ty
    simp only [DiceParser.check, DiceParser.peek, hu]
  have hclose : (decide (u.Typ = .Group) && decide (u.Value = ")")) = false := by
    simpa using h3
  simp only [DiceParser.Primary, hcheck0, hpeek0, hcons0, hinner2, hcheck, hpeek, hclose]
  simp

/-- C12 as amended. When `Primary` opens a group whose inner tokens are a sentence of
the grammar and the token the cursor then stands on (the next token, or the last token
of the input when none follows) is neither an operator nor a closing parenthesis,
it records the error `Unmatched parenthesis.` and returns no tree (`nil`) for the
group; when the group starts the input, `Expr` returns `nil` with exactly that
error. -/
theorem C12_unmatched_parenthesis (nd : Char → Bool) {ts : List Token} {a : AstExpr}
    (h : Derives .Expr ts a) (pre post : List Token) (es : List String) (u : Token)
    (hu : (pre ++ ⟨.Group, "("⟩ :: ts ++ post)[cursorAt (pre ++ ⟨.Group, "("⟩ :: ts ++ post)
      (pre.length + 1 + ts.length)]? = some u)
    (h1 : u.Typ ≠ .Term) (h2 : u.Typ ≠ .Factor) (h3 : ¬ (u.Typ = .Group ∧ u.Value = ")"))
    (fuel : Nat) (hfuel : ts.length + 1 < fuel) :
    DiceParser.Primary nd fuel ⟨pre ++ ⟨.Group, "("⟩ :: ts ++ post, pre.length, es⟩
        = .ok (.nil, ⟨pre ++ ⟨.Group, "("⟩ :: ts ++ post,
            cursorAt (pre ++ ⟨.Group, "("⟩ :: ts ++ post) (pre.length + 1 + ts.length),
            es ++ ["Unmatched parenthesis."]⟩)
    ∧ (pre = [] →
        DiceParser.Expr nd fuel (NewDiceParser (⟨.Group, "("⟩ :: ts ++ post))
          = .ok (.nil, ⟨⟨.Group, "("⟩ :: ts ++ post,
              cursorAt (⟨.Group, "("⟩ :: ts ++ post) (1 + ts.length),
              ["Unmatched parenthesis."]⟩)) := by
  have hprim := primary_unmatched nd h pre post es _ rfl u hu h1 h2 h3 fuel hfuel
  refine ⟨hprim, ?_⟩
  rintro rfl
  have hprim0 := primary_unmatched nd h [] post [] _ rfl u hu h1 h2 h3 fuel hfuel
  obtain ⟨k, rfl⟩ : ∃ k, fuel = k + 1 := ⟨fuel - 1, by omega⟩
  simp only [List.nil_append, List.length_nil, Nat.zero_add] at hu hprim0
  have hcheck : ∀ (es : List String) (ty : TokenType),
      DiceParser.check ⟨⟨.Group, "("⟩ :: ts ++ post,
          cursorAt (⟨.Group, "("⟩ :: ts ++ post) (1 + ts.length), es⟩ ty
        = .ok (decide (u.Typ = ty)) := by
    intro es ty
    simp only [DiceParser.check, DiceParser.peek, hu]
  have hF : (decide (u.Typ = .Factor)) = false := by simpa using h2
  have hT : (decide (u.Typ = .Term)) = false := by simpa using h1
  simp only [DiceParser.Expr, DiceParser.Term, DiceParser.Factor, NewDiceParser, hprim0,
    DiceParser.factorLoop, DiceParser.termLoop, hcheck, hF, hT]

/-- C12, applied to the tokens of `(1+2`. -/
theorem C12_unmatched_parenthesis_witness :
    Derives .Expr [⟨.Const, "1"⟩, ⟨.Term, "+"⟩, ⟨.Const, "2"⟩]
      (.AstOp (.AstConst 1) (.AstConst 2) ⟨.Term, "+"⟩) ∧
    DiceParser.Expr ndSample 5
        (NewDiceParser [⟨.Group, "("⟩, ⟨.Const, "1"⟩, ⟨.Term, "+"⟩, ⟨.Const, "2"⟩])
      = .ok (.nil, ⟨[⟨.Group, "("⟩, ⟨.Const, "1"⟩, ⟨.Term, "+"⟩, ⟨.Const, "2"⟩], 3,
          ["Unmatched parenthesis."]⟩) :=
  have one : Derives .Primary [⟨.Const, "1"⟩] (.AstConst 1) :=
    @Derives.number ['1'] (by decide) (by decide) (by decide)
  have two : Derives .Primary [⟨.Const, "2"⟩] (.AstConst 2) :=
    @Derives.number ['2'] (by decide) (by decide) (by decide)
  have inner : Derives .Expr [⟨.Const, "1"⟩, ⟨.Term, "+"⟩, ⟨.Const, "2"⟩]
      (.AstOp (.AstConst 1) (.AstConst 2) ⟨.Term, "+"⟩) :=
    Derives.expr (Derives.term (Derives.factor one Derives.factorNil)
      (Derives.termCons (Or.inl rfl) (Derives.factor two Derives.factorNil)
        Derives.termNil))
  ⟨inner, (C12_unmatched_parenthesis ndSample inner [] [] [] ⟨.Const, "2"⟩ (by decide)
    (by decide) (by decide) (by decide) 5 (by decide)).2 rfl⟩

/-- C12 as stated fails. In the tokens of `((1)` the first opening parenthesis has no
closing one, and in those of `1)(2` the only opening parenthesis has none, yet on both
`Expr` returns the tree of `1` with an empty error list. -/
theorem C12_counterexample :
    (tokenizeExpr ndSample "((1)"
        = .ok ([⟨.Group, "("⟩, ⟨.Group, "("⟩, ⟨.Const, "1"⟩, ⟨.Group, ")"⟩], none)
      ∧ DiceParser.Expr ndSample 6
          (NewDiceParser [⟨.Group, "("⟩, ⟨.Group, "("⟩, ⟨.Const, "1"⟩, ⟨.Group, ")"⟩])
        = .ok (.AstConst 1,
            ⟨[⟨.Group, "("⟩, ⟨.Group, "("⟩, ⟨.Const, "1"⟩, ⟨.Group, ")"⟩], 3, []⟩))
    ∧ (tokenizeExpr ndSample "1)(2"
        = .ok ([⟨.Const, "1"⟩, ⟨.Group, ")"⟩, ⟨.Group, "("⟩, ⟨.Const, "2"⟩], none)
      ∧ DiceParser.Expr ndSample 6
          (NewDiceParser [⟨.Const, "1"⟩, ⟨.Group, ")"⟩, ⟨.Group, "("⟩, ⟨.Const, "2"⟩])
        = .ok (.AstConst 1,
            ⟨[⟨.Const, "1"⟩, ⟨.Group, ")"⟩, ⟨.Group, "("⟩, ⟨.Const, "2"⟩], 1, []⟩)) :=
  ⟨⟨by rfl, by rfl⟩, ⟨by rfl, by rfl⟩⟩

/-! ## Faults of the parser -/

/-- In primary position on a token that is not a number, a die or an opening
parenthesis, `Primary` panics. -/
theorem primary_unreachable (nd : Char → Bool) (fuel : Nat) (p : DiceParser) (tok : Token)
    (hp : DiceParser.peek p = .ok tok) (h1 : tok.Typ ≠ .Const) (h2 : tok.Typ ≠ .Die)
    (h3 : ¬ (tok.Typ = .Group ∧ tok.Value = "(")) :
    DiceParser.Primary nd (fuel + 1) p = .error .unreachable := by
  have hc : ∀ ty, DiceParser.check p ty = .ok (decide (tok.Typ = ty)) := by
    intro ty
    simp only [DiceParser.check, hp]
  have hopen : (decide (tok.Typ = .Group) && decide (tok.Value = "(")) = false := by
    simpa using h3
  simp only [DiceParser.Primary, hc, hp, h1, h2, hopen, decide_False]
  simp

/-- C13, the code at the failing inputs. Whenever `Primary` stands on a token that is
not a number, a die or an opening parenthesis it panics as unreachable instead of
recording a parse error; so does `Expr` on the tokens of `+1`, `1+`, `)` and `1*/2`. -/
theorem C13_primary_position_panics (nd : Char → Bool) :
    (∀ (fuel : Nat) (p : DiceParser) (tok : Token), DiceParser.peek p = .ok tok →
        tok.Typ ≠ .Const → tok.Typ ≠ .Die → ¬ (tok.Typ = .Group ∧ tok.Value = "(") →
        DiceParser.Primary nd (fuel + 1) p = .error .unreachable)
    ∧ (tokenizeExpr nd "+1" = .ok ([⟨.Term, "+"⟩, ⟨.Const, "1"⟩], none)
      ∧ DiceParser.Expr nd 8 (NewDiceParser [⟨.Term, "+"⟩, ⟨.Const, "1"⟩])
        = .error .unreachable)
    ∧ (tokenizeExpr nd "1+" = .ok ([⟨.Const, "1"⟩, ⟨.Term, "+"⟩], none)
      ∧ DiceParser.Expr nd 8 (NewDiceParser [⟨.Const, "1"⟩, ⟨.Term, "+"⟩])
        = .error .unreachable)
    ∧ (tokenizeExpr nd ")" = .ok ([⟨.Group, ")"⟩], none)
      ∧ DiceParser.Expr nd 8 (NewDiceParser [⟨.Group, ")"⟩]) = .error .unreachable)
    ∧ (tokenizeExpr nd "1*/2"
        = .ok ([⟨.Const, "1"⟩, ⟨.Factor, "*"⟩, ⟨.Factor, "/"⟩, ⟨.Const, "2"⟩], none)
      ∧ DiceParser.Expr nd 8
          (NewDiceParser [⟨.Const, "1"⟩, ⟨.Factor, "*"⟩, ⟨.Factor, "/"⟩, ⟨.Const, "2"⟩])
        = .error .unreachable) :=
  ⟨fun fuel p tok hp h1 h2 h3 => primary_unreachable nd fuel p tok hp h1 h2 h3,
    ⟨rfl, rfl⟩, ⟨rfl, rfl⟩, ⟨rfl, rfl⟩, ⟨rfl, rfl⟩⟩

/-- On an opening parenthesis that is the last token `Primary` calls itself in the
same state: no amount of fuel lets it return. -/
theorem primary_open_last (nd : Char → Bool) (p : DiceParser)
    (hlast : p.current + 1 = p.tokens.length)
    (htok : p.tokens[p.current]? = some ⟨.Group, "("⟩) :
    ∀ fuel, DiceParser.Primary nd fuel p = .error .outOfFuel := by
  intro fuel
  induction fuel with
  | zero => rfl
  | succ k ih =>
    have hpeek : DiceParser.peek p = .ok ⟨.Group, "("⟩ := by
      simp only [DiceParser.peek, htok]
    have hc : ∀ ty, DiceParser.check p ty = .ok (decide (TokenType.Group = ty)) := by
      intro ty
      simp only [DiceParser.check, hpeek]
    have hend : DiceParser.isAtEnd p = true := by
      simp only [DiceParser.isAtEnd, decide_eq_true_eq]
      omega
    have hcons : DiceParser.consume p = .ok (⟨.Group, "("⟩, p) := by
      simp only [DiceParser.consume, hend, htok]
      simp
    simp only [DiceParser.Primary, hc, hpeek, hcons, DiceParser.Term, DiceParser.Factor, ih]
    simp

/-- C18, the code at the failing inputs. On the tokens of `(` and of `1+(`, where the
opening parenthesis is the last token, `consume` does not advance, `Primary` re-enters
`Expr` in the same state and the parser does not terminate: it exceeds every fuel
bound. -/
theorem C18_open_parenthesis_last_diverges (nd : Char → Bool) (fuel : Nat) :
    (tokenizeExpr nd "(" = .ok ([⟨.Group, "("⟩], none)
      ∧ DiceParser.consume (NewDiceParser [⟨.Group, "("⟩])
        = .ok (⟨.Group, "("⟩, NewDiceParser [⟨.Group, "("⟩])
      ∧ DiceParser.Expr nd fuel (NewDiceParser [⟨.Group, "("⟩]) = .error .outOfFuel)
    ∧ (tokenizeExpr nd "1+(" = .ok ([⟨.Const, "1"⟩, ⟨.Term, "+"⟩, ⟨.Group, "("⟩], none)
      ∧ DiceParser.Expr nd fuel
          (NewDiceParser [⟨.Const, "1"⟩, ⟨.Term, "+"⟩, ⟨.Group, "("⟩])
        = .error .outOfFuel) := by
  refine ⟨⟨rfl, rfl, ?_⟩, ⟨rfl, ?_⟩⟩
  · have h := primary_open_last nd (NewDiceParser [⟨.Group, "("⟩]) rfl rfl fuel
    simp only [DiceParser.Expr, DiceParser.Term, DiceParser.Factor, h]
  · have h := primary_open_last nd
      ⟨[⟨.Const, "1"⟩, ⟨.Term, "+"⟩, ⟨.Group, "("⟩], 2, []⟩ rfl rfl fuel
    cases fuel with
    | zero => rfl
    | succ k =>
      have h1 : DiceParser.Primary nd (k + 1)
          (NewDiceParser [⟨.Const, "1"⟩, ⟨.Term, "+"⟩, ⟨.Group, "("⟩])
          = .ok (.AstConst 1, ⟨[⟨.Const, "1"⟩, ⟨.Term, "+"⟩, ⟨.Group, "("⟩], 1, []⟩) := rfl
      have h2 : DiceParser.check
          ⟨[⟨.Const, "1"⟩, ⟨.Term, "+"⟩, ⟨.Group, "("⟩], 1, []⟩ .Factor = .ok false := rfl
      have h3 : DiceParser.check
          ⟨[⟨.Const, "1"⟩, ⟨.Term, "+"⟩, ⟨.Group, "("⟩], 1, []⟩ .Term = .ok true := rfl
      have h4 : DiceParser.consume ⟨[⟨.Const, "1"⟩, ⟨.Term, "+"⟩, ⟨.Group, "("⟩], 1, []⟩
          = .ok (⟨.Term, "+"⟩, ⟨[⟨.Const, "1"⟩, ⟨.Term, "+"⟩, ⟨.Group, "("⟩], 2, []⟩) := rfl
      simp only [DiceParser.Expr, DiceParser.Term, DiceParser.Factor, h1,
        DiceParser.factorLoop, DiceParser.termLoop, h2, h3, h4, h]

/-! ## Whitespace -/

/-- The lexer sees only the characters that are not whitespace. -/
theorem tokenizeExpr_strip (nd : Char → Bool) (raw : String) :
    tokenizeExpr nd raw
      = tokenizeExpr nd (String.mk (raw.data.filter (fun c => !isWhitespace c))) := by
  simp only [tokenizeExpr]
  rw [tokenizeLoop_filter nd raw.data, tokenizeLoop_filter nd (List.filter _ _),
    List.filter_filter]

/-- C17 as amended. Whitespace is skipped and is not a flush boundary: the pending
buffer goes on accumulating across it, so `tokenizeExpr (a ++ " " ++ b)` equals
`tokenizeExpr (a ++ b)` for all `a` and `b`, the lexer only ever sees the input without
its whitespace, and `1 2` yields the single Number token `12`. -/
theorem C17_whitespace_skipped (nd : Char → Bool) (a b : String) :
    tokenizeExpr nd (a ++ " " ++ b) = tokenizeExpr nd (a ++ b)
    ∧ (∀ raw : String, tokenizeExpr nd raw
        = tokenizeExpr nd (String.mk (raw.data.filter (fun c => !isWhitespace c))))
    ∧ tokenizeExpr nd "1 2" = .ok ([⟨.Const, "12"⟩], none) := by
  refine ⟨?_, tokenizeExpr_strip nd, rfl⟩
  rw [tokenizeExpr_strip nd (a ++ " " ++ b), tokenizeExpr_strip nd (a ++ b)]
  congr 2
  have hsp : (" " : String).data.filter (fun c => !isWhitespace c) = [] := by decide
  simp only [String.data_append, List.filter_append, hsp, List.append_nil]

/-- C17 as stated fails: `1 2` lexes to one Number token `12`, not to the token of `1`
followed by the token of `2`. -/
theorem C17_counterexample :
    tokenizeExpr ndSample "1 2" = .ok ([⟨.Const, "12"⟩], none)
    ∧ tokenizeExpr ndSample "1" = .ok ([⟨.Const, "1"⟩], none)
    ∧ tokenizeExpr ndSample "2" = .ok ([⟨.Const, "2"⟩], none) :=
  ⟨by rfl, by rfl, by rfl⟩

/-! ## Evaluation of whole trees -/

/-- The evaluation of a dice node with a count of at least 0 that `make` accepts and at
least one side. -/
theorem eval_die (count sides : Int) (g : Rand) (hc : 0 ≤ count)
    (hcap : 8 * count ≤ maxAlloc) (hs : 1 ≤ sides) (hsm : sides ≤ maxInt) :
    (AstExpr.AstDie count sides).Eval g
      = .ok (wrapInt (drawsOf g count.toNat sides).sum,
          renderDraws (drawsOf g count.toNat sides), { g with pos := g.pos + count.toNat }) := by
  have hneg : ¬ (count < 0 ∨ maxAlloc < 8 * count) := by omega
  simp only [AstExpr.Eval, hneg, if_false,
    rollLoop_spec hs hsm count.toNat count.toNat ['['] [] g (Nat.le_refl _),
    sumRolls_eq, List.nil_append, renderDraws]

theorem sum_lower (ds : List Int) (h : ∀ d ∈ ds, 1 ≤ d) : (ds.length : Int) ≤ ds.sum := by
  induction ds with
  | nil => simp
  | cons d ds ih =>
    have h1 := h d (List.mem_cons_self _ _)
    have h2 := ih (fun x hx => h x (List.mem_cons_of_mem _ hx))
    simp only [List.sum_cons, List.length_cons]
    push_cast
    omega

theorem isOperator_iff (op : String) :
    isOperator op = true ↔ op = "+" ∨ op = "-" ∨ op = "*" ∨ op = "/" := by
  simp [isOperator, or_assoc]

/-- The binary operation: its value, and its trace, which is the assembled one unless
the operator is `/` and the divisor is 0. -/
theorem evalOp_spec {op : String}
    (hop : op = "+" ∨ op = "-" ∨ op = "*" ∨ op = "/") (l r : Int) (sb : String) :
    evalOp op l r sb
      = .ok (applyOp op l r,
          if op = "/" ∧ r = 0 then "ERROR: DIVIDE BY ZERO" else sb) := by
  rcases hop with rfl | rfl | rfl | rfl
  · rfl
  · rfl
  · rfl
  · by_cases hr : r = 0
    · simp [evalOp, applyOp, hr]
    · simp [evalOp, applyOp, hr]

/-- C16. Evaluation of a dice-free tree (only `AstConst` and `AstOp` nodes, operators
among `+ - * /`) is deterministic: there is one value and one trace that `Eval` returns
whatever the random source, and the source is handed back unchanged, so no draw is
consumed. -/
theorem C16_dice_free_deterministic (t : AstExpr) (h : diceFree t = true) :
    ∃ v w, ∀ g : Rand, t.Eval g = .ok (v, w, g) := by
  induction t with
  | nil => simp [diceFree] at h
  | AstConst c => exact ⟨c, Itoa c, fun _ => rfl⟩
  | AstDie l r => simp [diceFree] at h
  | AstOp a b op iha ihb =>
    simp only [diceFree, Bool.and_eq_true] at h
    obtain ⟨va, wa, ha⟩ := iha h.1.1
    obtain ⟨vb, wb, hb⟩ := ihb h.1.2
    have hop := (isOperator_iff op.Value).mp h.2
    refine ⟨applyOp op.Value va vb,
      if op.Value = "/" ∧ vb = 0 then "ERROR: DIVIDE BY ZERO"
      else wa ++ " " ++ op.Value ++ " " ++ wb, fun g => ?_⟩
    simp only [AstExpr.Eval, ha, hb, evalOp_spec hop]

/-- C16, applied to the tree of `7-2/0`. -/
theorem C16_dice_free_deterministic_witness :
    diceFree (.AstOp (.AstConst 7) (.AstOp (.AstConst 2) (.AstConst 0) ⟨.Factor, "/"⟩)
      ⟨.Term, "-"⟩) = true ∧
    ∃ v w, ∀ g : Rand,
      (AstExpr.AstOp (.AstConst 7) (.AstOp (.AstConst 2) (.AstConst 0) ⟨.Factor, "/"⟩)
        ⟨.Term, "-"⟩).Eval g = .ok (v, w, g) :=
  ⟨by decide, C16_dice_free_deterministic _ (by decide)⟩

/-- The value of a dice node with positive count bounds: between `count` and
`count * sides` when that product fits in an `int`. -/
theorem eval_die_bounds (count sides : Int) (g : Rand) (hc : 0 ≤ count)
    (hcap : 8 * count ≤ maxAlloc) (hs : 1 ≤ sides) (hsm : sides ≤ maxInt)
    (hprod : count * sides ≤ maxInt) :
    ∃ v w, (AstExpr.AstDie count sides).Eval g
        = .ok (v, w, { g with pos := g.pos + count.toNat })
      ∧ count ≤ v ∧ v ≤ count * sides := by
  have hb := drawsOf_bounds g count.toNat hs
  have hup := sum_bounds _ hb
  have hlo := sum_lower _ (fun d hd => (hb d hd).1)
  rw [drawsOf_length] at hup hlo
  have hcn : ((count.toNat : Nat) : Int) = count := by omega
  rw [hcn] at hup hlo
  have hfit : fitsInt (drawsOf g count.toNat sides).sum := by
    simp only [fitsInt, minInt, maxInt] at hprod ⊢
    omega
  refine ⟨_, _, eval_die count sides g hc hcap hs hsm, ?_, ?_⟩
  · rw [wrapInt_of_fits hfit]
    exact hlo
  · rw [wrapInt_of_fits hfit]
    exact hup.2

/-- The evaluation of an operator node over two evaluated children. -/
theorem eval_AstOp (l r : AstExpr) (tok : Token) (g : Rand) {lv rv : Int} {lt rt : String}
    {g1 g2 : Rand} (hl : l.Eval g = .ok (lv, lt, g1)) (hr : r.Eval g1 = .ok (rv, rt, g2))
    (hop : tok.Value = "+" ∨ tok.Value = "-" ∨ tok.Value = "*" ∨ tok.Value = "/") :
    (AstExpr.AstOp l r tok).Eval g
      = .ok (applyOp tok.Value lv rv,
          if tok.Value = "/" ∧ rv = 0 then "ERROR: DIVIDE BY ZERO"
          else lt ++ " " ++ tok.Value ++ " " ++ rt, g2) := by
  rw [AstExpr.Eval]
  simp only [hl, hr, evalOp_spec hop]

/-- C15. The input `3d6+(1d4/2)` tokenizes without error, parses with an empty error
list into `AstOp{AstDie{3,6}, AstOp{AstDie{1,4}, AstConst 2, /}, +}`, and for every
random source its evaluation does not fault, takes four draws and returns a value
between 3 and 20. -/
theorem C15_end_to_end (nd : Char → Bool) (g : Rand) :
    tokenizeExpr nd "3d6+(1d4/2)"
      = .ok ([⟨.Die, "3d6"⟩, ⟨.Term, "+"⟩, ⟨.Group, "("⟩, ⟨.Die, "1d4"⟩, ⟨.Factor, "/"⟩,
          ⟨.Const, "2"⟩, ⟨.Group, ")"⟩], none)
    ∧ DiceParser.Expr nd 8 (NewDiceParser
        [⟨.Die, "3d6"⟩, ⟨.Term, "+"⟩, ⟨.Group, "("⟩, ⟨.Die, "1d4"⟩, ⟨.Factor, "/"⟩,
          ⟨.Const, "2"⟩, ⟨.Group, ")"⟩])
      = .ok (.AstOp (.AstDie 3 6) (.AstOp (.AstDie 1 4) (.AstConst 2) ⟨.Factor, "/"⟩)
            ⟨.Term, "+"⟩,
          ⟨[⟨.Die, "3d6"⟩, ⟨.Term, "+"⟩, ⟨.Group, "("⟩, ⟨.Die, "1d4"⟩, ⟨.Factor, "/"⟩,
            ⟨.Const, "2"⟩, ⟨.Group, ")"⟩], 6, []⟩)
    ∧ ∃ v w, (AstExpr.AstOp (.AstDie 3 6)
          (.AstOp (.AstDie 1 4) (.AstConst 2) ⟨.Factor, "/"⟩) ⟨.Term, "+"⟩).Eval g
        = .ok (v, w, { g with pos := g.pos + 4 })
      ∧ 3 ≤ v ∧ v ≤ 20 := by
  refine ⟨rfl, rfl, ?_⟩
  obtain ⟨a, wa, ha, ha1, ha2⟩ := eval_die_bounds 3 6 g (by decide) (by decide) (by decide) (by decide)
    (by decide)
  obtain ⟨b, wb, hb, hb1, hb2⟩ := eval_die_bounds 1 4 { g with pos := g.pos + 3 }
    (by decide) (by decide) (by decide) (by decide) (by decide)
  have hq : Int.tdiv b 2 = b / 2 := Int.tdiv_eq_ediv (by omega) (by omega)
  have hfq : fitsInt (b / 2) := by
    simp only [fitsInt, minInt, maxInt]
    omega
  have hfs : fitsInt (a + b / 2) := by
    simp only [fitsInt, minInt, maxInt]
    omega
  have hinner := eval_AstOp (.AstDie 1 4) (.AstConst 2) ⟨.Factor, "/"⟩ _ hb rfl
    (Or.inr (Or.inr (Or.inr rfl)))
  have houter := eval_AstOp (.AstDie 3 6) _ ⟨.Term, "+"⟩ g ha hinner (Or.inl rfl)
  have hv : applyOp "+" a (applyOp "/" b 2) = a + b / 2 := by
    simp [applyOp, hq, wrapInt_of_fits hfq, wrapInt_of_fits hfs]
  rw [hv] at houter
  exact ⟨_, _, houter, by omega, by omega⟩

/-- The evaluation of an evaluable tree against the trace with the divisions by zero
marked and against the trace that shows every roll. -/
theorem eval_fullTrace (t : AstExpr) (hev : evaluable t = true) :
    ∀ g : Rand, ∃ v w, t.Eval g = .ok (v, w, (fullTrace t g).2)
      ∧ w = shownTrace t g
      ∧ (zeroFree t g = true → w = (fullTrace t g).1)
      ∧ (fullTrace t g).2 = { g with pos := g.pos + drawCount t } := by
  induction t with
  | nil => simp [evaluable] at hev
  | AstConst c => exact fun g => ⟨c, Itoa c, rfl, rfl, fun _ => rfl, rfl⟩
  | AstDie l r =>
    intro g
    simp only [evaluable, Bool.and_eq_true, decide_eq_true_eq] at hev
    exact ⟨_, _, eval_die l r g hev.1.1.1 hev.1.1.2 hev.1.2 hev.2, rfl, fun _ => rfl, rfl⟩
  | AstOp a b op iha ihb =>
    intro g
    simp only [evaluable, Bool.and_eq_true] at hev
    obtain ⟨va, wa, ha, hsa, hza, hca⟩ := iha hev.1.1 g
    obtain ⟨vb, wb, hb, hsb, hzb, hcb⟩ := ihb hev.1.2 (fullTrace a g).2
    have hop := (isOperator_iff op.Value).mp hev.2
    refine ⟨_, _, eval_AstOp a b op g ha hb hop, ?_, ?_, ?_⟩
    · simp only [shownTrace, evalsToZero, hb, decide_eq_true_eq, hsa, hsb]
    · intro hz
      simp only [zeroFree, ha, hb, Bool.and_eq_true, Bool.not_eq_true',
        Bool.and_eq_false_iff, decide_eq_false_iff_not] at hz
      obtain ⟨hz1, hz2, hz3⟩ := hz
      have hnz : ¬ (op.Value = "/" ∧ vb = 0) := by
        rintro ⟨h1, h2⟩
        rcases hz3 with h | h
        · exact h h1
        · exact h h2
      rw [if_neg hnz, hza hz1, hzb hz2]
      rfl
    · show (fullTrace b (fullTrace a g).2).2 = _
      rw [hcb, hca]
      simp only [drawCount, Nat.add_assoc]

/-- C14 as amended. For every evaluable tree (no `nil` child, dice with a count between
0 and 2^45 and at least one side, operators among `+ - * /`) and every random source,
`Eval` returns and makes exactly the draws of the tree's dice in evaluation order. Its
trace is the trace with the divisions by zero marked: a division whose divisor
evaluates to 0 shows `ERROR: DIVIDE BY ZERO` in place of its whole subtree, and every
dice node outside such a division is the bracketed list of its draws. When the
evaluation meets no division by zero, that is the trace that shows every roll. -/
theorem C14_trace_shows_rolls (t : AstExpr) (hev : evaluable t = true) (g : Rand) :
    ∃ v w, t.Eval g = .ok (v, w, (fullTrace t g).2)
      ∧ w = shownTrace t g
      ∧ (zeroFree t g = true → w = (fullTrace t g).1)
      ∧ (fullTrace t g).2 = { g with pos := g.pos + drawCount t } :=
  eval_fullTrace t hev g

/-- C14, applied to the tree of `2d6*3-1d6/0` on the source 0, 1, 2, ...: the division
by zero is replaced and the two draws of `2d6` outside it are shown. -/
theorem C14_trace_shows_rolls_witness :
    evaluable (.AstOp (.AstOp (.AstDie 2 6) (.AstConst 3) ⟨.Factor, "*"⟩)
      (.AstOp (.AstDie 1 6) (.AstConst 0) ⟨.Factor, "/"⟩) ⟨.Term, "-"⟩) = true
    ∧ shownTrace (.AstOp (.AstOp (.AstDie 2 6) (.AstConst 3) ⟨.Factor, "*"⟩)
        (.AstOp (.AstDie 1 6) (.AstConst 0) ⟨.Factor, "/"⟩) ⟨.Term, "-"⟩) ⟨fun n => n, 0⟩
      = "[1, 2] * 3 - ERROR: DIVIDE BY ZERO"
    ∧ fullTrace (.AstOp (.AstOp (.AstDie 2 6) (.AstConst 3) ⟨.Factor, "*"⟩)
        (.AstOp (.AstDie 1 6) (.AstConst 0) ⟨.Factor, "/"⟩) ⟨.Term, "-"⟩) ⟨fun n => n, 0⟩
      = ("[1, 2] * 3 - [3] / 0", ⟨fun n => n, 3⟩)
    ∧ ∃ v w, (AstExpr.AstOp (.AstOp (.AstDie 2 6) (.AstConst 3) ⟨.Factor, "*"⟩)
        (.AstOp (.AstDie 1 6) (.AstConst 0) ⟨.Factor, "/"⟩) ⟨.Term, "-"⟩).Eval ⟨fun n => n, 0⟩
        = .ok (v, w,
          (fullTrace (.AstOp (.AstOp (.AstDie 2 6) (.AstConst 3) ⟨.Factor, "*"⟩)
            (.AstOp (.AstDie 1 6) (.AstConst 0) ⟨.Factor, "/"⟩) ⟨.Term, "-"⟩)
            ⟨fun n => n, 0⟩).2)
      ∧ w = shownTrace (.AstOp (.AstOp (.AstDie 2 6) (.AstConst 3) ⟨.Factor, "*"⟩)
          (.AstOp (.AstDie 1 6) (.AstConst 0) ⟨.Factor, "/"⟩) ⟨.Term, "-"⟩) ⟨fun n => n, 0⟩
      ∧ (zeroFree (.AstOp (.AstOp (.AstDie 2 6) (.AstConst 3) ⟨.Factor, "*"⟩)
          (.AstOp (.AstDie 1 6) (.AstConst 0) ⟨.Factor, "/"⟩) ⟨.Term, "-"⟩)
          ⟨fun n => n, 0⟩ = true
        → w = (fullTrace (.AstOp (.AstOp (.AstDie 2 6) (.AstConst 3) ⟨.Factor, "*"⟩)
            (.AstOp (.AstDie 1 6) (.AstConst 0) ⟨.Factor, "/"⟩) ⟨.Term, "-"⟩)
            ⟨fun n => n, 0⟩).1)
      ∧ (fullTrace (.AstOp (.AstOp (.AstDie 2 6) (.AstConst 3) ⟨.Factor, "*"⟩)
          (.AstOp (.AstDie 1 6) (.AstConst 0) ⟨.Factor, "/"⟩) ⟨.Term, "-"⟩)
          ⟨fun n => n, 0⟩).2
        = { (⟨fun n => n, 0⟩ : Rand) with
            pos := 0 + drawCount (.AstOp (.AstOp (.AstDie 2 6) (.AstConst 3) ⟨.Factor, "*"⟩)
              (.AstOp (.AstDie 1 6) (.AstConst 0) ⟨.Factor, "/"⟩) ⟨.Term, "-"⟩) } :=
  ⟨by decide, by rfl, by rfl,
    C14_trace_shows_rolls (.AstOp (.AstOp (.AstDie 2 6) (.AstConst 3) ⟨.Factor, "*"⟩)
      (.AstOp (.AstDie 1 6) (.AstConst 0) ⟨.Factor, "/"⟩) ⟨.Term, "-"⟩) (by decide)
      ⟨fun n => n, 0⟩⟩

/-- C14 as stated fails on `1d6/0`: one die is rolled (the source advances by one draw,
and the draw is 4), but the returned trace is `ERROR: DIVIDE BY ZERO` and shows no
draw. -/
theorem C14_counterexample :
    tokenizeExpr ndSample "1d6/0"
      = .ok ([⟨.Die, "1d6"⟩, ⟨.Factor, "/"⟩, ⟨.Const, "0"⟩], none)
    ∧ DiceParser.Expr ndSample 4
        (NewDiceParser [⟨.Die, "1d6"⟩, ⟨.Factor, "/"⟩, ⟨.Const, "0"⟩])
      = .ok (.AstOp (.AstDie 1 6) (.AstConst 0) ⟨.Factor, "/"⟩,
          ⟨[⟨.Die, "1d6"⟩, ⟨.Factor, "/"⟩, ⟨.Const, "0"⟩], 2, []⟩)
    ∧ (AstExpr.AstOp (.AstDie 1 6) (.AstConst 0) ⟨.Factor, "/"⟩).Eval ⟨fun _ => 3, 0⟩
      = .ok (0, "ERROR: DIVIDE BY ZERO", ⟨fun _ => 3, 1⟩)
    ∧ drawsOf ⟨fun _ => 3, 0⟩ 1 6 = [4]
    ∧ (AstExpr.AstDie 1 6).Eval ⟨fun _ => 3, 0⟩ = .ok (4, "[4]", ⟨fun _ => 3, 1⟩)
    ∧ '[' ∉ "ERROR: DIVIDE BY ZERO".data ∧ '4' ∉ "ERROR: DIVIDE BY ZERO".data :=
  ⟨by rfl, by rfl, by rfl, by rfl, by rfl, by decide, by decide⟩

/-! ## Invariants of the parser -/

theorem resOK_mono {toks : List Token} {Q : AstExpr → Prop} {c c' : Nat} (h : c ≤ c')
    {r : Except Fault (AstExpr × DiceParser)} (hr : ResOK toks Q c' r) : ResOK toks Q c r := by
  rcases r with f | ⟨a, p⟩
  · exact hr
  · exact ⟨hr.1, Nat.le_trans h hr.2.1, hr.2.2⟩

/-- Inside the token sequence `peek` returns one of its tokens. -/
theorem peek_inRange {toks : List Token} {p : DiceParser} (ht : p.tokens = toks)
    (hc : p.current < toks.length) : ∃ t, DiceParser.peek p = .ok t ∧ t ∈ toks := by
  subst ht
  refine ⟨p.tokens[p.current], ?_, List.getElem_mem _⟩
  simp only [DiceParser.peek, List.getElem?_eq_getElem hc]

/-- Inside the token sequence `consume` returns the token under the cursor and moves
the cursor by at most one, never past the last token. -/
theorem consume_inRange {toks : List Token} {p : DiceParser} (ht : p.tokens = toks)
    (hc : p.current < toks.length) :
    ∃ t p1, DiceParser.consume p = .ok (t, p1) ∧ DiceParser.peek p = .ok t ∧ t ∈ toks ∧
      p1.tokens = toks ∧ p.current ≤ p1.current ∧ p1.current < toks.length ∧
      (p.current + 1 = toks.length → p1 = p) := by
  subst ht
  have hget : p.tokens[p.current]? = some p.tokens[p.current] := List.getElem?_eq_getElem hc
  have hpeek : DiceParser.peek p = .ok p.tokens[p.current] := by
    simp only [DiceParser.peek, hget]
  by_cases hend : DiceParser.isAtEnd p = true
  · refine ⟨p.tokens[p.current], p, ?_, hpeek, List.getElem_mem _, rfl, Nat.le_refl _, hc,
      fun _ => rfl⟩
    simp only [DiceParser.consume, hend, hget]
    simp
  · have hne : ¬ ((p.current : Int) = (p.tokens.length : Int) - 1) := by
      simpa [DiceParser.isAtEnd] using hend
    refine ⟨p.tokens[p.current], { p with current := p.current + 1 }, ?_, hpeek,
      List.getElem_mem _, rfl, Nat.le_succ _, ?_, fun h => ?_⟩
    · simp only [DiceParser.consume, hend, Nat.add_sub_cancel, hget]
      simp
    · show p.current + 1 < p.tokens.length
      omega
    · exfalso
      omega

theorem check_of_peek {p : DiceParser} {t : Token} (h : DiceParser.peek p = .ok t)
    (ty : TokenType) : DiceParser.check p ty = .ok (decide (t.Typ = ty)) := by
  simp only [DiceParser.check, h]

/-- The loop of `Factor` keeps the invariant when `prim` does. -/
theorem factorLoop_ok {toks : List Token} {Q : AstExpr → Prop}
    (hQ : ∀ a b t, Q a → Q b → Q (.AstOp a b t))
    {prim : DiceParser → Except Fault (AstExpr × DiceParser)}
    (hprim : ∀ p, p.tokens = toks → p.current < toks.length → ResOK toks Q p.current (prim p)) :
    ∀ (fuel : Nat) (acc : AstExpr) (p : DiceParser), p.tokens = toks →
      p.current < toks.length → Q acc →
      ResOK toks Q p.current (DiceParser.factorLoop prim fuel acc p) := by
  intro fuel
  induction fuel with
  | zero => intro acc p _ _ _; simp [DiceParser.factorLoop, ResOK]
  | succ k ih =>
    intro acc p ht hc hacc
    obtain ⟨t, p1, hcons, hpeek, _, ht1, hle1, hc1, _⟩ := consume_inRange ht hc
    rw [DiceParser.factorLoop]
    simp only [check_of_peek hpeek]
    by_cases hty : t.Typ = .Factor
    · simp only [hty, decide_True, hcons]
      have h1 := hprim p1 ht1 hc1
      rcases hp : prim p1 with f | ⟨right, p2⟩
      · rw [hp] at h1
        exact h1
      · rw [hp] at h1
        obtain ⟨ht2, hle2, hc2, hq2⟩ := h1
        exact resOK_mono (Nat.le_trans hle1 hle2) (ih _ p2 ht2 hc2 (hQ _ _ _ hacc hq2))
    · simp only [hty, decide_False]
      exact ⟨ht, Nat.le_refl _, hc, hacc⟩

/-- The rule `Factor` keeps the invariant when `prim` does. -/
theorem Factor_ok {toks : List Token} {Q : AstExpr → Prop}
    (hQ : ∀ a b t, Q a → Q b → Q (.AstOp a b t))
    {prim : DiceParser → Except Fault (AstExpr × DiceParser)}
    (hprim : ∀ p, p.tokens = toks → p.current < toks.length → ResOK toks Q p.current (prim p))
    (fuel : Nat) (p : DiceParser) (ht : p.tokens = toks) (hc : p.current < toks.length) :
    ResOK toks Q p.current (DiceParser.Factor prim fuel p) := by
  rw [DiceParser.Factor]
  have h1 := hprim p ht hc
  rcases hp : prim p with f | ⟨a, p1⟩
  · rw [hp] at h1
    exact h1
  · rw [hp] at h1
    obtain ⟨ht1, hle1, hc1, hq1⟩ := h1
    exact resOK_mono hle1 (factorLoop_ok hQ hprim fuel a p1 ht1 hc1 hq1)

/-- The loop of `Term` keeps the invariant when `prim` does. -/
theorem termLoop_ok {toks : List Token} {Q : AstExpr → Prop}
    (hQ : ∀ a b t, Q a → Q b → Q (.AstOp a b t))
    {prim : DiceParser → Except Fault (AstExpr × DiceParser)}
    (hprim : ∀ p, p.tokens = toks → p.current < toks.length → ResOK toks Q p.current (prim p)) :
    ∀ (fuel : Nat) (acc : AstExpr) (p : DiceParser), p.tokens = toks →
      p.current < toks.length → Q acc →
      ResOK toks Q p.current (DiceParser.termLoop prim fuel acc p) := by
  intro fuel
  induction fuel with
  | zero => intro acc p _ _ _; simp [DiceParser.termLoop, ResOK]
  | succ k ih =>
    intro acc p ht hc hacc
    obtain ⟨t, p1, hcons, hpeek, _, ht1, hle1, hc1, _⟩ := consume_inRange ht hc
    rw [DiceParser.termLoop]
    simp only [check_of_peek hpeek]
    by_cases hty : t.Typ = .Term
    · simp only [hty, decide_True, hcons]
      have h1 := Factor_ok hQ hprim k p1 ht1 hc1
      rcases hp : DiceParser.Factor prim k p1 with f | ⟨right, p2⟩
      · rw [hp] at h1
        exact h1
      · rw [hp] at h1
        obtain ⟨ht2, hle2, hc2, hq2⟩ := h1
        exact resOK_mono (Nat.le_trans hle1 hle2) (ih _ p2 ht2 hc2 (hQ _ _ _ hacc hq2))
    · simp only [hty, decide_False]
      exact ⟨ht, Nat.le_refl _, hc, hacc⟩

/-- The rule `Term` keeps the invariant when `prim` does. -/
theorem Term_ok {toks : List Token} {Q : AstExpr → Prop}
    (hQ : ∀ a b t, Q a → Q b → Q (.AstOp a b t))
    {prim : DiceParser → Except Fault (AstExpr × DiceParser)}
    (hprim : ∀ p, p.tokens = toks → p.current < toks.length → ResOK toks Q p.current (prim p))
    (fuel : Nat) (p : DiceParser) (ht : p.tokens = toks) (hc : p.current < toks.length) :
    ResOK toks Q p.current (DiceParser.Term prim fuel p) := by
  rw [DiceParser.Term]
  have h1 := Factor_ok hQ hprim fuel p ht hc
  rcases hp : DiceParser.Factor prim fuel p with f | ⟨a, p1⟩
  · rw [hp] at h1
    exact h1
  · rw [hp] at h1
    obtain ⟨ht1, hle1, hc1, hq1⟩ := h1
    exact resOK_mono hle1 (termLoop_ok hQ hprim fuel a p1 ht1 hc1 hq1)

theorem ite_errors_tokens (c : Prop) [Decidable c] (p : DiceParser) (es : List String) :
    (if c then { p with errors := es } else p).tokens = p.tokens := by
  split <;> rfl

theorem ite_errors_current (c : Prop) [Decidable c] (p : DiceParser) (es : List String) :
    (if c then { p with errors := es } else p).current = p.current := by
  split <;> rfl

theorem primaryDie_state (nd : Char → Bool) (t : Token) (p : DiceParser) :
    (DiceParser.primaryDie nd t p).2.tokens = p.tokens ∧
      (DiceParser.primaryDie nd t p).2.current = p.current := by
  unfold DiceParser.primaryDie
  split
  · split
    · exact ⟨rfl, rfl⟩
    · dsimp only
      split_ifs <;> exact ⟨rfl, rfl⟩
  · exact ⟨rfl, rfl⟩

/-- The rule `Primary` keeps the invariant: on a non-empty token sequence, from a cursor
inside it, it never indexes outside the sequence, never moves the cursor back or past
the last token, and builds trees that satisfy `Q`. -/
theorem Primary_ok (nd : Char → Bool) {toks : List Token} {Q : AstExpr → Prop}
    (hQ : ∀ a b t, Q a → Q b → Q (.AstOp a b t)) (hnil : Q .nil)
    (hconst : ∀ v, Q (.AstConst v))
    (hdie : ∀ t ∈ toks, t.Typ = .Die → ∀ p, Q (DiceParser.primaryDie nd t p).1) :
    ∀ (fuel : Nat) (p : DiceParser), p.tokens = toks → p.current < toks.length →
      ResOK toks Q p.current (DiceParser.Primary nd fuel p) := by
  intro fuel
  induction fuel with
  | zero => intro p _ _; simp [DiceParser.Primary, ResOK]
  | succ k ih =>
    intro p ht hc
    obtain ⟨t, p1, hcons, hpeek, hmem, ht1, hle1, hc1, _⟩ := consume_inRange ht hc
    rw [DiceParser.Primary]
    simp only [check_of_peek hpeek, hpeek, hcons]
    by_cases hty1 : t.Typ = .Const
    · simp only [hty1, decide_True]
      exact ⟨(ite_errors_tokens _ _ _).trans ht1, by rw [ite_errors_current]; exact hle1,
        by rw [ite_errors_current]; exact hc1, hconst _⟩
    · simp only [hty1, decide_False]
      by_cases hty2 : t.Typ = .Die
      · simp only [hty2, decide_True]
        have hs := primaryDie_state nd t p1
        have hq := hdie t hmem hty2 p1
        rcases hpd : DiceParser.primaryDie nd t p1 with ⟨a, q⟩
        rw [hpd] at hs hq
        have hs1 : q.tokens = p1.tokens := hs.1
        have hs2 : q.current = p1.current := hs.2
        exact ⟨hs1.trans ht1, by omega, by omega, hq⟩
      · simp only [hty2, decide_False]
        by_cases hopen : (decide (t.Typ = .Group) && decide (t.Value = "(")) = true
        · simp only [hopen, if_true]
          have h1 := Term_ok hQ ih k p1 ht1 hc1
          rcases hp : DiceParser.Term (DiceParser.Primary nd k) k p1 with f | ⟨expr, p2⟩
          · rw [hp] at h1
            exact h1
          · rw [hp] at h1
            obtain ⟨ht2, hle2, hc2, hq2⟩ := h1
            obtain ⟨t2, p3, hcons2, hpeek2, _, ht3, hle3, hc3, _⟩ := consume_inRange ht2 hc2
            simp only [check_of_peek hpeek2, hpeek2, hcons2]
            split
            · exact ⟨ht3, Nat.le_trans hle1 (Nat.le_trans hle2 hle3), hc3, hq2⟩
            · exact ⟨ht2, Nat.le_trans hle1 hle2, hc2, hnil⟩
        · simp only [hopen, Bool.false_eq_true, if_false]
          simp [ResOK]

/-- The rule `Expr` keeps the invariant. -/
theorem Expr_ok (nd : Char → Bool) {toks : List Token} {Q : AstExpr → Prop}
    (hQ : ∀ a b t, Q a → Q b → Q (.AstOp a b t)) (hnil : Q .nil)
    (hconst : ∀ v, Q (.AstConst v))
    (hdie : ∀ t ∈ toks, t.Typ = .Die → ∀ p, Q (DiceParser.primaryDie nd t p).1)
    (fuel : Nat) (p : DiceParser) (ht : p.tokens = toks) (hc : p.current < toks.length) :
    ResOK toks Q p.current (DiceParser.Expr nd fuel p) :=
  Term_ok hQ (Primary_ok nd hQ hnil hconst hdie fuel) fuel p ht hc

/-- Cursor discipline on non-empty token sequences: started from `NewDiceParser`, `Expr`
never indexes outside the sequence, and when it returns the tokens are unchanged and
the cursor is inside the sequence. -/
theorem cursor_discipline_nonempty (nd : Char → Bool) (toks : List Token) (hne : toks ≠ [])
    (fuel : Nat) :
    ResOK toks (fun _ => True) 0 (DiceParser.Expr nd fuel (NewDiceParser toks)) :=
  Expr_ok nd (fun _ _ _ _ _ => trivial) trivial (fun _ => trivial)
    (fun _ _ _ _ => trivial) fuel (NewDiceParser toks) rfl
    (List.length_pos.mpr hne)

/-! ## Dice nodes of parsed input -/

theorem Atoi_digits_nonneg {ds : List Char} (hne : ds ≠ []) (hd : ds.all asciiDigit = true) :
    0 ≤ (Atoi (String.mk ds)).1 := by
  obtain ⟨c, cs, rfl⟩ := List.exists_cons_of_ne_nil hne
  have hc : asciiDigit c = true := by
    simp only [List.all_cons, Bool.and_eq_true] at hd
    exact hd.1
  have h1 : c ≠ '-' := asciiDigit_elim (fun c => c ≠ '-') (by decide) hc
  have h2 : c ≠ '+' := asciiDigit_elim (fun c => c ≠ '+') (by decide) hc
  simp only [Atoi, List.head?_cons, Option.some.injEq, h1, h2, decide_False, Bool.or_self,
    Bool.false_eq_true, if_false, hd, Bool.not_true, List.isEmpty_cons]
  split
  · decide
  · exact Int.ofNat_nonneg _

/-- On a Die token of the lexer's shape the die branch of `Primary` builds a dice node
whose count and sides are not negative. -/
theorem primaryDie_nonneg (nd : Char → Bool) (t : Token) (hshape : LexerDie t)
    (hty : t.Typ = .Die) (p : DiceParser) :
    DieNodes (fun l r => 0 ≤ l ∧ 0 ≤ r) (DiceParser.primaryDie nd t p).1 := by
  obtain ⟨k, s, hk, hkd, hs, hsd, hval⟩ := hshape hty
  have hk2 := List.all_eq_true.mpr hkd
  have hs2 := List.all_eq_true.mpr hsd
  have hsplit : splitOnD t.Value.data = [k, s] := by
    rw [hval]
    exact splitOnD_one_d (all_asciiDigit_no_d hk2) (all_asciiDigit_no_d hs2)
  simp only [DiceParser.primaryDie, hsplit, all_asciiDigit_isInt nd hs2, hk, Bool.not_true,
    Bool.false_eq_true, if_false, DieNodes]
  exact ⟨Atoi_digits_nonneg hk hk2, Atoi_digits_nonneg hs hs2⟩

/-- Every dice node of a tree parsed from the lexer's tokens has a count and a number
of sides that are not negative. -/
theorem parsed_die_nodes_nonneg (nd : Char → Bool) (raw : String) (toks : List Token)
    (fuel : Nat) (a : AstExpr) (p : DiceParser)
    (hlex : tokenizeExpr nd raw = .ok (toks, none))
    (hparse : DiceParser.Expr nd fuel (NewDiceParser toks) = .ok (a, p)) :
    DieNodes (fun l r => 0 ≤ l ∧ 0 ≤ r) a := by
  have hne : toks ≠ [] := by
    rintro rfl
    cases fuel with
    | zero => exact absurd hparse (by simp [DiceParser.Expr, DiceParser.Term,
        DiceParser.Factor, DiceParser.Primary])
    | succ k => exact absurd hparse (by simp [DiceParser.Expr, DiceParser.Term,
        DiceParser.Factor, DiceParser.Primary, DiceParser.check, DiceParser.peek,
        NewDiceParser])
  have h := Expr_ok nd (Q := DieNodes (fun l r => 0 ≤ l ∧ 0 ≤ r))
    (fun _ _ _ ha hb => ⟨ha, hb⟩) trivial (fun _ => trivial)
    (fun t ht hty q => primaryDie_nonneg nd t
      (fun hty' => die_token_shape nd raw toks t hlex ht hty') hty q)
    fuel (NewDiceParser toks) rfl (List.length_pos.mpr hne)
  rw [hparse] at h
  exact h.2.2.2

/-- C20 as amended. For every input string that `tokenizeExpr` accepts and `Expr`
parses, every `AstDie{left, right}` node of the resulting tree has a count `left` of at
least 0 and a number of sides `right` of at least 0. Zero sides are not excluded, and
on a dice node with zero sides and a count between 1 and 2^45 (a count that `make`
accepts, `8 * left ≤ maxAlloc`) `Eval` calls `rand.Intn(0)` and faults; with a larger
count it faults before, in `make([]int, left)`. -/
theorem C20_die_nodes_nonnegative (nd : Char → Bool) (raw : String) (toks : List Token)
    (fuel : Nat) (a : AstExpr) (p : DiceParser)
    (hlex : tokenizeExpr nd raw = .ok (toks, none))
    (hparse : DiceParser.Expr nd fuel (NewDiceParser toks) = .ok (a, p)) :
    DieNodes (fun l r => 0 ≤ l ∧ 0 ≤ r) a
    ∧ (∀ (l : Int) (g : Rand), 1 ≤ l → 8 * l ≤ maxAlloc →
        (AstExpr.AstDie l 0).Eval g = .error .intnNonPositive)
    ∧ (∀ (l r : Int) (g : Rand), maxAlloc < 8 * l →
        (AstExpr.AstDie l r).Eval g = .error .makesliceLenOutOfRange) := by
  refine ⟨parsed_die_nodes_nonneg nd raw toks fuel a p hlex hparse, fun l g hl hcap => ?_,
    fun l r g hbig => ?_⟩
  · have hneg : ¬ (l < 0 ∨ maxAlloc < 8 * l) := by omega
    obtain ⟨k, hk⟩ : ∃ k, l.toNat = k + 1 := ⟨l.toNat - 1, by omega⟩
    simp [AstExpr.Eval, hneg, hk, rollLoop, Rand.Intn]
  · have hpos : l < 0 ∨ maxAlloc < 8 * l := Or.inr hbig
    simp only [AstExpr.Eval, hpos, if_true]

/-- C20, applied to the input `2d6+1`. -/
theorem C20_die_nodes_nonnegative_witness :
    tokenizeExpr ndSample "2d6+1"
      = .ok ([⟨.Die, "2d6"⟩, ⟨.Term, "+"⟩, ⟨.Const, "1"⟩], none)
    ∧ DiceParser.Expr ndSample 4
        (NewDiceParser [⟨.Die, "2d6"⟩, ⟨.Term, "+"⟩, ⟨.Const, "1"⟩])
      = .ok (.AstOp (.AstDie 2 6) (.AstConst 1) ⟨.Term, "+"⟩,
          ⟨[⟨.Die, "2d6"⟩, ⟨.Term, "+"⟩, ⟨.Const, "1"⟩], 2, []⟩)
    ∧ DieNodes (fun l r => 0 ≤ l ∧ 0 ≤ r)
        (.AstOp (.AstDie 2 6) (.AstConst 1) ⟨.Term, "+"⟩) :=
  ⟨by rfl, by rfl,
    (C20_die_nodes_nonnegative ndSample "2d6+1"
      [⟨.Die, "2d6"⟩, ⟨.Term, "+"⟩, ⟨.Const, "1"⟩] 4
      (.AstOp (.AstDie 2 6) (.AstConst 1) ⟨.Term, "+"⟩)
      ⟨[⟨.Die, "2d6"⟩, ⟨.Term, "+"⟩, ⟨.Const, "1"⟩], 2, []⟩ (by rfl) (by rfl)).1⟩

/-- C20 as stated fails on `1d0`: it lexes, parses with an empty error list into
`AstDie{1, 0}`, whose sides are not at least 1, and `Eval` then calls `rand.Intn(0)` and
faults. -/
theorem C20_counterexample :
    tokenizeExpr ndSample "1d0" = .ok ([⟨.Die, "1d0"⟩], none)
    ∧ DiceParser.Expr ndSample 2 (NewDiceParser [⟨.Die, "1d0"⟩])
      = .ok (.AstDie 1 0, ⟨[⟨.Die, "1d0"⟩], 0, []⟩)
    ∧ (AstExpr.AstDie 1 0).Eval ⟨fun n => n, 0⟩ = .error .intnNonPositive :=
  ⟨by rfl, by rfl, by rfl⟩

/-! ## Cursor discipline -/

/-- C19, the code at the failing input. Empty and whitespace-only input lex to the empty
token sequence without error; on it `peek` indexes `tokens[0]` outside the sequence, so
`Expr` panics with an index out of range, and so does the handler on the message
`!roll`. On every non-empty token sequence the discipline holds: `Expr` never indexes
outside the sequence, the cursor never moves back or past the last token, and `consume`
on the last token returns it and leaves the cursor unchanged. -/
theorem C19_empty_sequence_index_out_of_range (nd : Char → Bool) (fuel : Nat)
    (username discriminator : String) (g : Rand) :
    (tokenizeExpr nd "" = .ok ([], none)
      ∧ tokenizeExpr nd " \t " = .ok ([], none)
      ∧ DiceParser.peek (NewDiceParser []) = .error .indexOutOfRange
      ∧ DiceParser.check (NewDiceParser []) .Const = .error .indexOutOfRange
      ∧ DiceParser.consume (NewDiceParser []) = .error .indexOutOfRange
      ∧ DiceParser.Expr nd (fuel + 1) (NewDiceParser []) = .error .indexOutOfRange
      ∧ RollHandler nd (fuel + 1) username discriminator ["roll"] g
        = ([], some .indexOutOfRange))
    ∧ (∀ (toks : List Token) (k : Nat), toks ≠ [] →
        ResOK toks (fun _ => True) 0 (DiceParser.Expr nd k (NewDiceParser toks)))
    ∧ (∀ p : DiceParser, p.current + 1 = p.tokens.length →
        ∃ t, DiceParser.peek p = .ok t ∧ DiceParser.consume p = .ok (t, p)) := by
  refine ⟨⟨rfl, rfl, rfl, rfl, rfl, rfl, rfl⟩,
    fun toks k hne => cursor_discipline_nonempty nd toks hne k, fun p hp => ?_⟩
  obtain ⟨t, p1, hcons, hpeek, _, _, _, _, hsame⟩ :=
    @consume_inRange p.tokens p rfl (by omega)
  rw [hsame hp] at hcons
  exact ⟨t, hpeek, hcons⟩
end Archmage
